import Mathlib

/-!
Verification of the target/dependency core of the blade build system
(`src/blade/target.py`).

Python strings are modelled as `List Char` (`PyStr`); the Python standard
library helpers used by the module (`os.path.normpath`, `os.path.join`,
`str.split`, `str.rsplit`, `str.startswith`, `str.endswith`, `str.strip`)
are embedded faithfully for the POSIX path convention (`os.sep = '/'`)
that the module assumes.

The diagnostics collaborator (`blade.console`) and the configuration and
registry collaborators are outside the verified source; following the
specification (§6), `console.error` / `console.warning` are modelled as
emitting a leveled message and continuing, `config.digest()` and
`blade.revision()` as opaque string parameters, and the target registry as
an association list keyed by canonical target key.
-/

set_option maxRecDepth 20000

namespace Blade

/-- Python strings, modelled as lists of characters. -/
abbrev PyStr := List Char

/-- Embed a Lean string literal as a Python string. -/
def pstr (s : String) : PyStr := s.data

/-- The POSIX path separator (`os.sep`). -/
def psep : Char := '/'

/-- The double-quote character (kept out of string literals). -/
def dquote : Char := Char.ofNat 34

/-- The single-quote character (kept out of string literals). -/
def squote : Char := Char.ofNat 39

/-- The backslash character (kept out of string literals). -/
def bslash : Char := Char.ofNat 92

/-- Python `s.split(sep)` for a single-character separator: splits on every
occurrence, `''.split(sep) = ['']`. -/
def splitOn (sep : Char) : PyStr → List PyStr
  | [] => [[]]
  | c :: rest =>
    if c = sep then [] :: splitOn sep rest
    else
      match splitOn sep rest with
      | [] => [[c]]
      | r :: rs => (c :: r) :: rs

/-- `sep.join(parts)`: interleave the separator between the parts. -/
def joinSep (sep : Char) : List PyStr → PyStr
  | [] => []
  | [x] => x
  | x :: xs => x ++ sep :: joinSep sep xs

/-- One step of the component loop of POSIX `os.path.normpath`:
skip empty and `'.'` components, keep `'..'` only when it cannot cancel a
previous component, otherwise pop the previous component. -/
def normStep (isl : Nat) (acc : List PyStr) (comp : PyStr) : List PyStr :=
  if comp = [] ∨ comp = pstr "." then acc
  else if comp ≠ pstr ".." ∨ (isl = 0 ∧ acc = []) ∨ acc.getLast? = some (pstr "..") then
    acc ++ [comp]
  else if acc ≠ [] then acc.dropLast
  else acc

/-- The number of leading slashes POSIX `normpath` preserves (`initial_slashes`
in `posixpath.normpath`): two when the path starts with exactly two slashes,
one for any other absolute path, zero for a relative path. -/
def normIsl (p : PyStr) : Nat :=
  if p.take 1 = [psep] then
    if p.take 2 = [psep, psep] ∧ p.take 3 ≠ [psep, psep, psep] then 2 else 1
  else 0

/-- The component list POSIX `normpath` accumulates (`new_comps`). -/
def normComps (p : PyStr) : List PyStr :=
  (splitOn psep p).foldl (normStep (normIsl p)) []

/-- POSIX `os.path.normpath`: collapse `.`/`..`/redundant separators,
preserving one or exactly two leading slashes (`return path or '.'`). -/
def normpath (p : PyStr) : PyStr :=
  if p = [] then pstr "."
  else if List.replicate (normIsl p) psep ++ joinSep psep (normComps p) = [] then pstr "."
  else List.replicate (normIsl p) psep ++ joinSep psep (normComps p)

/-- POSIX `os.path.join(a, b)` for two arguments. -/
def pjoin (a b : PyStr) : PyStr :=
  if [psep].isPrefixOf b then b
  else if a = [] ∨ a.getLast? = some psep then a ++ b
  else a ++ psep :: b

/-- Python `t.rsplit(sep, 1)` for an input known to contain the separator:
split off the part after the last occurrence. -/
def rsplitColon (t : PyStr) : PyStr × PyStr :=
  (joinSep ':' (splitOn ':' t).dropLast, (splitOn ':' t).getLastD [])

/-- The diagnostic emitted by `_normalize_one` for a target starting from the
root path (`console.error('Invalid target "%s" starting from root path.' % target)`). -/
def errMsgRoot (target : PyStr) : PyStr :=
  pstr "Invalid target " ++ dquote :: target ++ dquote :: pstr " starting from root path."

/-- The path/name split performed by `_normalize_one` after root/working-dir
resolution: split at the last `:` when present, else recognize a trailing
`...`, else use the wildcard name `*`. -/
def splitPathName (t : PyStr) : PyStr × PyStr :=
  if t.contains ':' then rsplitColon t
  else if (pstr "...").isSuffixOf t then (t.take (t.length - 3), pstr "...")
  else (t, pstr "*")

/-- The root/working-dir resolution step of `_normalize_one`: strip a `//`
prefix, report an error for a single leading `/` (keeping the string), else
join onto the working directory when it is not `.`. The second component
collects the messages passed to `console.error` (the diagnostics collaborator
records the error and evaluation continues). -/
def resolveTarget (target workingDir : PyStr) : PyStr × List PyStr :=
  if (pstr "//").isPrefixOf target then (target.drop 2, [])
  else if [psep].isPrefixOf target then (target, [errMsgRoot target])
  else (if workingDir ≠ pstr "." then pjoin workingDir target else target, [])

/-- `_normalize_one(target, working_dir)`: resolve against the root or the
working directory, split into path and name, and normalize the path. -/
def normalizeOne (target workingDir : PyStr) : PyStr × List PyStr :=
  (normpath (splitPathName (resolveTarget target workingDir).1).1 ++
    ':' :: (splitPathName (resolveTarget target workingDir).1).2,
   (resolveTarget target workingDir).2)

/-- `normalize(targets, working_dir)`: normalize each target, collecting all
emitted diagnostics. -/
def normalize (targets : List PyStr) (workingDir : PyStr) : List PyStr × List PyStr :=
  (targets.map fun t => (normalizeOne t workingDir).1,
   targets.flatMap fun t => (normalizeOne t workingDir).2)

/-- `match(target_id, pattern)`. Python unpacks `split(':')` into exactly two
variables, so inputs with other than exactly one colon raise; those return
`none` here. The guarded index access `t_path[len(p_path)]` is total in the
model (`getElem?`): Python can only reach it when the index is in range,
because the `or` short-circuits when the two paths are equal. -/
def matchTarget (targetId pattern : PyStr) : Option Bool :=
  match splitOn ':' targetId, splitOn ':' pattern with
  | [tPath, _], [pPath, pName] =>
    if pName = pstr "..." then
      some (tPath = pPath ∨ (pPath.isPrefixOf tPath ∧ tPath[pPath.length]? = some psep))
    else if pName = pstr "*" then
      some (tPath = pPath)
    else
      some (targetId = pattern)
  | _, _ => none

/-- A path component that can appear in `normpath` output: nonempty, not the
current-directory marker, and free of separators. -/
def NormedComp (c : PyStr) : Prop := c ≠ [] ∧ c ≠ pstr "." ∧ psep ∉ c

/-- The shape invariant of the component list built by `normpath`: for a
relative path a (possibly empty) leading run of `..` components followed by
`..`-free components; for an absolute path no `..` components at all. -/
def ReducedShape (isl : Nat) (out : List PyStr) : Prop :=
  if isl = 0 then ∃ k r, out = List.replicate k (pstr "..") ++ r ∧ pstr ".." ∉ r
  else pstr ".." ∉ out

deriving instance DecidableEq for Except

/-- Python values that occur in this module's rule-hash entropy records and
attribute mappings: strings, integers, and lists of strings (`srcs` and the
dependency hash list are lists of strings). -/
inductive PyVal where
  | str (s : PyStr)
  | int (n : Int)
  | strList (xs : List PyStr)
deriving DecidableEq

/-- One character of Python `repr` of a string under quote character `q`:
escape the backslash, the chosen quote, and the common control characters.
(Python additionally hex-escapes other unprintable characters; no verified
claim depends on the representation of such strings.) -/
def pyEscapeChar (q c : Char) : PyStr :=
  if c = bslash ∨ c = q then [bslash, c]
  else if c = Char.ofNat 10 then [bslash, 'n']
  else if c = Char.ofNat 13 then [bslash, 'r']
  else if c = Char.ofNat 9 then [bslash, 't']
  else [c]

/-- Python `repr` of a string: quoted with `'`, or with `"` exactly when the
string contains `'` but no `"`. -/
def pyReprStr (s : PyStr) : PyStr :=
  if squote ∈ s ∧ dquote ∉ s then
    dquote :: s.flatMap (pyEscapeChar dquote) ++ [dquote]
  else
    squote :: s.flatMap (pyEscapeChar squote) ++ [squote]

/-- Python `repr` of the comma-separated interior of a list of strings. -/
def pyReprStrList : List PyStr → PyStr
  | [] => []
  | [x] => pyReprStr x
  | x :: xs => pyReprStr x ++ ',' :: ' ' :: pyReprStrList xs

/-- Python `repr` of a value. -/
def pyReprVal : PyVal → PyStr
  | .str s => pyReprStr s
  | .int n => pstr (toString n)
  | .strList xs => '[' :: (pyReprStrList xs ++ [']'])

/-- Python `repr` of a `(key, value)` tuple. -/
def pyReprItem (kv : PyStr × PyVal) : PyStr :=
  '(' :: (pyReprStr kv.1 ++ ',' :: ' ' :: (pyReprVal kv.2 ++ [')']))

/-- Python `repr` of the comma-separated interior of a list of tuples. -/
def pyReprItems : List (PyStr × PyVal) → PyStr
  | [] => []
  | [kv] => pyReprItem kv
  | kv :: kvs => pyReprItem kv ++ ',' :: ' ' :: pyReprItems kvs

/-- Python `str` of a list of `(key, value)` tuples, as produced by
`str(sorted(entropy.items()))`. -/
def pyStrItems (l : List (PyStr × PyVal)) : PyStr := '[' :: (pyReprItems l ++ [']'])

/-- Lookup in a Python dict modelled as an association list. -/
def dictLookup {α : Type} : List (PyStr × α) → PyStr → Option α
  | [], _ => none
  | (k2, v) :: m, k => if k2 = k then some v else dictLookup m k

/-- Assignment `d[k] = v` on a Python dict modelled as an association list:
replace the value at an existing key in place, else append the new binding. -/
def dictSet {α : Type} : List (PyStr × α) → PyStr → α → List (PyStr × α)
  | [], k, v => [(k, v)]
  | (k2, v2) :: m, k, v => if k2 = k then (k2, v) :: m else (k2, v2) :: dictSet m k v

/-- `d.update(u)` on Python dicts modelled as association lists. -/
def dictUpdate {α : Type} (m u : List (PyStr × α)) : List (PyStr × α) :=
  u.foldl (fun acc kv => dictSet acc kv.1 kv.2) m

/-- Lexicographic (code-point) comparison of Python strings, as used by
`sorted` on the entropy items; keys of a Python dict are distinct, so the
tuple comparison never reaches the values. -/
def pstrLe : PyStr → PyStr → Bool
  | [], _ => true
  | _ :: _, [] => false
  | a :: as, b :: bs => if a = b then pstrLe as bs else decide (a < b)

/-- Ordered insertion by key into the sorted entropy item list. -/
def insertByKey (x : PyStr × PyVal) : List (PyStr × PyVal) → List (PyStr × PyVal)
  | [] => [x]
  | y :: ys => if pstrLe x.1 y.1 then x :: y :: ys else y :: insertByKey x ys

/-- `sorted(d.items())` for a dict with distinct keys. -/
def sortByKey (l : List (PyStr × PyVal)) : List (PyStr × PyVal) :=
  l.foldr insertByKey []

/-- Base-16 digits of a natural number, little-endian, by fuel-bounded
division (the fuel `n` always suffices for `n` itself). -/
def hexDigitsAux : Nat → Nat → List Nat
  | 0, _ => []
  | _ + 1, 0 => []
  | fuel + 1, n + 1 => ((n + 1) % 16) :: hexDigitsAux fuel ((n + 1) / 16)

/-- Base-16 digits of a natural number, little-endian. -/
def hexDigits (n : Nat) : List Nat := hexDigitsAux n n

/-- A hexadecimal digit character. -/
def hexDig : Nat → Char
  | 0 => '0' | 1 => '1' | 2 => '2' | 3 => '3' | 4 => '4'
  | 5 => '5' | 6 => '6' | 7 => '7' | 8 => '8' | 9 => '9'
  | 10 => 'a' | 11 => 'b' | 12 => 'c' | 13 => 'd' | 14 => 'e'
  | _ => 'f'

/-- Modelled from the spec: `md5sum` is imported from `blade.blade_util`,
which is not part of the verified source tree. The specification (§4.5)
requires a deterministic fixed-alphabet digest for which any change of the
input changes the output, collision probability being negligible (`a
checksum-grade property suffices`). We model it as an injective digest over
the hexadecimal alphabet: each input character becomes the hex digits of its
code point followed by a `g` terminator. -/
def md5sum (s : PyStr) : PyStr :=
  s.flatMap (fun c => (hexDigits c.toNat).map hexDig ++ ['g'])

/-- The declared data of a `Target` that participates in the verified
operations: identity (`path`, `name`, `key`), `type`, `srcs`, `deps` as
canonical keys, the build-affecting `attr` mapping, and the explicitly
non-hash `data` mapping. `Target` state that no claim touches (visibility,
the clean list) is omitted; the memoized rule buffer and output table are
modelled separately as `RuleGenState`. -/
structure TargetCore where
  path : PyStr
  name : PyStr
  key : PyStr
  type : PyStr
  srcs : List PyStr
  deps : List PyStr
  attr : List (PyStr × PyVal)
  data : List (PyStr × PyVal)
deriving DecidableEq

/-- The required entries of the `rule_hash` entropy record together with the
`deps` entry (`entropy['deps'] = deps`), before kind-specific entropy is
merged in. -/
def ruleEntropyBase (rev cfg : PyStr) (t : TargetCore) (depHashes : List PyStr) :
    List (PyStr × PyVal) :=
  [(pstr "blade_revision", .str rev), (pstr "config", .str cfg),
   (pstr "type", .str t.type), (pstr "name", .str t.name),
   (pstr "srcs", .strList t.srcs), (pstr "deps", .strList depHashes)]

/-- The merged entropy record: `entropy.update(self._rule_hash_entropy())`,
where the base-class `_rule_hash_entropy` returns the whole `attr` mapping. -/
def ruleEntropy (rev cfg : PyStr) (t : TargetCore) (depHashes : List PyStr) :
    List (PyStr × PyVal) :=
  dictUpdate (ruleEntropyBase rev cfg t depHashes) t.attr

/-- `str(sorted(entropy.items()))`, the string that gets hashed. -/
def entropyStr (rev cfg : PyStr) (t : TargetCore) (depHashes : List PyStr) : PyStr :=
  pyStrItems (sortByKey (ruleEntropy rev cfg t depHashes))

/-- The digest of one target's entropy record, given the hashes of its direct
dependencies. -/
def ruleHashOf (rev cfg : PyStr) (t : TargetCore) (depHashes : List PyStr) : PyStr :=
  md5sum (entropyStr rev cfg t depHashes)

/-- `rule_hash()` over the registry: look the target up by key, recursively
hash the direct dependencies in declaration order, and digest the entropy
record. The fuel makes the recursion through registry lookups well-founded; a
dependency cycle exhausts any fuel and yields `none`, matching the
non-termination such a registry would cause in the source. -/
def ruleHashF (rev cfg : PyStr) (db : List (PyStr × TargetCore)) :
    Nat → PyStr → Option PyStr
  | 0 => fun _ => none
  | n + 1 => fun k =>
    match dictLookup db k with
    | none => none
    | some t =>
      match t.deps.mapM (ruleHashF rev cfg db n) with
      | none => none
      | some dhs => some (ruleHashOf rev cfg t dhs)

/-- The serialized entropy string of a registry target (the value hashed on
the final line of `rule_hash`). -/
def entropyStrF (rev cfg : PyStr) (db : List (PyStr × TargetCore)) :
    Nat → PyStr → Option PyStr
  | 0 => fun _ => none
  | n + 1 => fun k =>
    match dictLookup db k with
    | none => none
    | some t =>
      match t.deps.mapM (ruleHashF rev cfg db n) with
      | none => none
      | some dhs => some (entropyStr rev cfg t dhs)

/-- The tail of the `repr` of a string list after its first element: empty,
or a comma-space separator followed by the remaining elements. -/
def pyReprStrTail : List PyStr → PyStr
  | [] => []
  | x :: xs => ',' :: ' ' :: pyReprStrList (x :: xs)

/-- Strings whose Python `repr` is plain quoting: no quote characters, no
backslash, no escaped control characters. Digest outputs always have this
shape. -/
def CleanStr (s : PyStr) : Prop :=
  ∀ c ∈ s, c ≠ squote ∧ c ≠ dquote ∧ c ≠ bslash ∧
    c ≠ Char.ofNat 10 ∧ c ≠ Char.ofNat 13 ∧ c ≠ Char.ofNat 9

/-- Transitive dependence through the registry: the target `tgt` is reachable
from the target with key `k` by following `deps` edges. -/
inductive Reaches (db : List (PyStr × TargetCore)) (tgt : PyStr) : PyStr → Prop where
  | direct : ∀ k t, dictLookup db k = some t → tgt ∈ t.deps → Reaches db tgt k
  | step : ∀ k t d, dictLookup db k = some t → d ∈ t.deps → Reaches db tgt d →
      Reaches db tgt k

/-- `SystemLibrary(name)`: strip the leading `#`, run the base constructor
with `type='system_library'`, no sources or dependencies, and the `attr`
mapping holding the `test_timeout` entry that `Target.__init__` copies from
the configuration; then override `path` to `#` and the key to `#:name`. -/
def mkSystemLibrary (cfgTimeout : PyVal) (name : PyStr) : TargetCore :=
  { path := ['#'], name := name.drop 1, key := '#' :: ':' :: name.drop 1,
    type := pstr "system_library", srcs := [], deps := [],
    attr := [(pstr "test_timeout", cfgTimeout)], data := [] }

/-- `_unify_dep(self, dep)`: translate one of the four dependency forms into
a canonical key. The `#name` form registers a `SystemLibrary` into the
registry when absent (`_add_system_library`); the updated registry is
returned next to the key. Python raises for a missing `:` in the `//` and
relative forms, for `..` in a relative path and for an empty string
(`dep[0]`); those are `.error` here. -/
def unifyDep (selfPath selfFullname : PyStr) (cfgTimeout : PyVal)
    (db : List (PyStr × TargetCore)) (dep : PyStr) :
    Except PyStr (PyStr × List (PyStr × TargetCore)) :=
  match dep with
  | [] => .error (pstr "IndexError")
  | c :: rest =>
    if c = ':' then
      .ok (normpath selfPath ++ ':' :: rest, db)
    else if (pstr "//").isPrefixOf dep then
      if dep.contains ':' then
        .ok (normpath (rsplitColon (dep.drop 2)).1 ++ ':' :: (rsplitColon (dep.drop 2)).2, db)
      else
        .error (pstr "Wrong dep format " ++ dquote :: dep ++ dquote ::
          pstr " in " ++ selfFullname)
    else if c = '#' then
      .ok ('#' :: ':' :: rest,
        if (dictLookup db ('#' :: ':' :: rest)).isSome then db
        else dictSet db ('#' :: ':' :: rest) (mkSystemLibrary cfgTimeout dep))
    else
      if dep.contains ':' then
        if List.IsInfix (pstr "..") (rsplitColon dep).1 then
          .error (pstr "Dont use .. in path")
        else
          .ok (normpath (selfPath ++ psep :: (rsplitColon dep).1) ++
            ':' :: (rsplitColon dep).2, db)
      else
        .error (pstr "Wrong format in " ++ selfFullname)

/-- Python whitespace, the character class of the location-reference regex
type tag. -/
def isPySpace (c : Char) : Bool :=
  c = ' ' || c = Char.ofNat 9 || c = Char.ofNat 10 || c = Char.ofNat 13 ||
  c = Char.ofNat 11 || c = Char.ofNat 12

/-- Python `str.strip()`. -/
def pstrip (s : PyStr) : PyStr :=
  ((s.dropWhile isPySpace).reverse.dropWhile isPySpace).reverse

/-- `_add_location_reference_target(self, m)` given the match object's
captured groups `(key, type)`, where the type group is `None` when no
output-type tag is present: default and strip the type tag, unify the key
(possibly registering a system library), and append the key to
`expanded_deps` and to `deps` when not already present. Returns the
`(key, type)` pair next to the updated `deps`, `expanded_deps` and
registry. -/
def addLocationReferenceTarget (selfPath selfFullname : PyStr) (cfgTimeout : PyVal)
    (db : List (PyStr × TargetCore)) (deps expandedDeps : List PyStr)
    (mKey : PyStr) (mType : Option PyStr) :
    Except PyStr ((PyStr × PyStr) × List PyStr × List PyStr ×
      List (PyStr × TargetCore)) :=
  match unifyDep selfPath selfFullname cfgTimeout db mKey with
  | .error e => .error e
  | .ok (key, db2) =>
    .ok ((key, pstrip (mType.getD [])),
      (if deps.contains key then deps else deps ++ [key]),
      (if expandedDeps.contains key then expandedDeps else expandedDeps ++ [key]),
      db2)

/-- The diagnostic of `_check_srcs` for an unsafe source path. -/
def invalidSrcMsg (src : PyStr) : PyStr :=
  pstr "Invalid source file path: " ++ src ++
    pstr ". can only be relative path, and must in current directory or subdirectories."

/-- The ownership-conflict diagnostic of `_check_srcs`
(`'"%s" is already in srcs of "%s"' % (src, target_existed[0])`). -/
def ownershipMsg (src owner : PyStr) : PyStr :=
  dquote :: src ++ dquote :: pstr " is already in srcs of " ++ dquote :: owner ++ [dquote]

/-- One source registration of the loop of `_check_srcs`: validate the path,
normalize it against the declaring target's directory, and resolve ownership
in the global `__src_target_map` (path to `(fullname, allow_duplicate)`).
`action` is `config duplicated_source_action`. Returns the updated map, the
messages passed to `self.error`, and the messages passed to `self.warning`
(the diagnostics collaborator records them and evaluation continues). -/
def checkSrcOwnership (action : PyStr) (path fullname : PyStr) (allowDup : Bool)
    (m : List (PyStr × (PyStr × Bool))) (src : PyStr) :
    List (PyStr × (PyStr × Bool)) × List PyStr × List PyStr :=
  let errs0 : List PyStr :=
    if List.IsInfix (pstr "..") src ∨ [psep].isPrefixOf src then [invalidSrcMsg src] else []
  let fullSrc := normpath (pjoin path src)
  match dictLookup m fullSrc with
  | none => (dictSet m fullSrc (fullname, allowDup), errs0, [])
  | some existed =>
    if existed ≠ (fullname, allowDup) then
      if existed.2 then (dictSet m fullSrc (fullname, allowDup), errs0, [])
      else if allowDup then (m, errs0, [])
      else if action = pstr "error" then (m, errs0 ++ [ownershipMsg src existed.1], [])
      else if action = pstr "warning" then (m, errs0, [ownershipMsg src existed.1])
      else (m, errs0, [])
    else (m, errs0, [])

/-- The rule-generation state of one target: the memoized rule buffer
(`__build_rules`, `None` until generated), the output table (`__targets`,
modelled with single-path values) with its default entry, and an
instrumentation counter for invocations of the subclass hook `ninja_rules`
(the specification's observable side-effect counter). -/
structure RuleGenState where
  buildRules : Option (List PyStr)
  targets : List (PyStr × PyStr)
  defaultTarget : PyStr
  ninjaCalls : Nat
deriving DecidableEq

/-- `get_rules()`: on the first call initialize the buffer and run the
subclass hook (which emits the record sequence `gen` through `_write_rule`);
afterwards return the cached buffer. -/
def getRules (gen : List PyStr) (st : RuleGenState) : List PyStr × RuleGenState :=
  match st.buildRules with
  | some rules => (rules, st)
  | none => (gen, { st with buildRules := some gen, ninjaCalls := st.ninjaCalls + 1 })

/-- `_get_target_file(label)`: force rule generation, then look up the label
in the output table (empty string on a miss), or return the default target
for an empty label. -/
def getTargetFile (gen : List PyStr) (st : RuleGenState) (label : PyStr) :
    PyStr × RuleGenState :=
  (if label ≠ [] then (dictLookup (getRules gen st).2.targets label).getD []
   else (getRules gen st).2.defaultTarget,
   (getRules gen st).2)

/-- Ordered insertion for `sorted` over plain strings. -/
def insertPyStr (x : PyStr) : List PyStr → List PyStr
  | [] => [x]
  | y :: ys => if pstrLe x y then x :: y :: ys else y :: insertPyStr x ys

/-- Python `sorted` over plain strings. -/
def sortPyStrs (l : List PyStr) : List PyStr := l.foldr insertPyStr []

/-- The deduplication performed by building a `set` before sorting. -/
def dedupPyStrs (l : List PyStr) : List PyStr :=
  l.foldl (fun acc x => if acc.contains x then acc else acc ++ [x]) []

/-- `_get_target_files()`: force rule generation, then return the sorted set
of output files. -/
def getTargetFiles (gen : List PyStr) (st : RuleGenState) :
    List PyStr × RuleGenState :=
  (sortPyStrs (dedupPyStrs ((getRules gen st).2.targets.map (fun kv => kv.2))),
   (getRules gen st).2)

/-- The public entry points through which rule generation can be triggered. -/
inductive RuleOp where
  | rules
  | targetFile (label : PyStr)
  | targetFiles

/-- Run one entry point for its state effect. -/
def runRuleOp (gen : List PyStr) (st : RuleGenState) : RuleOp → RuleGenState
  | .rules => (getRules gen st).2
  | .targetFile label => (getTargetFile gen st label).2
  | .targetFiles => (getTargetFiles gen st).2

/-- Run a sequence of entry points. -/
def runRuleOps (gen : List PyStr) (st : RuleGenState) (ops : List RuleOp) : RuleGenState :=
  ops.foldl (runRuleOp gen) st

/-- The state of a freshly constructed target: no rules generated yet. -/
def freshRuleGenState (targets : List (PyStr × PyStr)) (deft : PyStr) : RuleGenState :=
  { buildRules := none, targets := targets, defaultTarget := deft, ninjaCalls := 0 }

/-- Concrete registry fixtures for the dependency-hash theorems: a leaf target
in two variants differing only in `srcs`, and a parent depending on the leaf,
in a well-behaved variant and a variant whose `attr` mapping binds the
reserved `deps` entropy key. -/
def leafKey : PyStr := pstr "a:l"

def parentKey : PyStr := pstr "a:p"

def leafA : TargetCore :=
  ⟨pstr "a", pstr "l", leafKey, pstr "cc_library", [pstr "x.c"], [], [], []⟩

def leafB : TargetCore :=
  ⟨pstr "a", pstr "l", leafKey, pstr "cc_library", [pstr "y.c"], [], [], []⟩

def parentOk : TargetCore :=
  ⟨pstr "a", pstr "p", parentKey, pstr "cc_library", [], [leafKey], [], []⟩

def parentOv : TargetCore :=
  ⟨pstr "a", pstr "p", parentKey, pstr "cc_library", [], [leafKey],
    [(pstr "deps", PyVal.str (pstr "x"))], []⟩

def dbA : List (PyStr × TargetCore) := [(leafKey, leafA), (parentKey, parentOk)]

def dbB : List (PyStr × TargetCore) := [(leafKey, leafB), (parentKey, parentOk)]

def dbOvA : List (PyStr × TargetCore) := [(leafKey, leafA), (parentKey, parentOv)]

def dbOvB : List (PyStr × TargetCore) := [(leafKey, leafB), (parentKey, parentOv)]

theorem splitOn_ne_nil (sep : Char) (p : PyStr) : splitOn sep p ≠ [] := by
  cases p with
  | nil => simp [splitOn]
  | cons c rest =>
    simp only [splitOn]
    split
    · simp
    · split <;> simp

theorem not_mem_splitOn {sep : Char} {p : PyStr} : ∀ c ∈ splitOn sep p, sep ∉ c := by
  induction p with
  | nil =>
    intro c hc
    simp [splitOn] at hc
    subst hc; simp
  | cons a rest ih =>
    intro c hc
    simp only [splitOn] at hc
    by_cases h : a = sep
    · rw [if_pos h] at hc
      rcases List.mem_cons.mp hc with hc | hc
      · subst hc; simp
      · exact ih c hc
    · rw [if_neg h] at hc
      cases hsp : splitOn sep rest with
      | nil => exact absurd hsp (splitOn_ne_nil sep rest)
      | cons r rs =>
        rw [hsp] at hc
        rcases List.mem_cons.mp hc with hc | hc
        · subst hc
          intro hmem
          rcases List.mem_cons.mp hmem with hsep | hsep
          · exact h hsep.symm
          · exact ih r (hsp ▸ List.mem_cons_self r rs) hsep
        · exact ih c (hsp ▸ List.mem_cons_of_mem r hc)

theorem splitOn_append (sep : Char) (a b : PyStr) :
    splitOn sep (a ++ sep :: b) = splitOn sep a ++ splitOn sep b := by
  induction a with
  | nil => simp [splitOn]
  | cons c a ih =>
    by_cases h : c = sep
    · simp only [List.cons_append, splitOn, if_pos h, List.append_eq, ih]
    · simp only [List.cons_append, splitOn, if_neg h, List.append_eq]
      rw [ih]
      cases hsp : splitOn sep a with
      | nil => exact absurd hsp (splitOn_ne_nil sep a)
      | cons r rs => simp

theorem splitOn_eq_single {sep : Char} {a : PyStr} (h : sep ∉ a) : splitOn sep a = [a] := by
  induction a with
  | nil => rfl
  | cons c a ih =>
    have hc : c ≠ sep := fun hcs => h (hcs ▸ List.mem_cons_self c a)
    have ha : sep ∉ a := fun hs => h (List.mem_cons_of_mem c hs)
    simp only [splitOn, if_neg hc, ih ha]

theorem joinSep_splitOn (sep : Char) (p : PyStr) : joinSep sep (splitOn sep p) = p := by
  induction p with
  | nil => rfl
  | cons c rest ih =>
    by_cases h : c = sep
    · simp only [splitOn, if_pos h]
      cases hsp : splitOn sep rest with
      | nil => exact absurd hsp (splitOn_ne_nil sep rest)
      | cons r rs =>
        rw [hsp] at ih
        simp [joinSep, ih, h]
    · simp only [splitOn, if_neg h]
      cases hsp : splitOn sep rest with
      | nil => exact absurd hsp (splitOn_ne_nil sep rest)
      | cons r rs =>
        rw [hsp] at ih
        cases rs with
        | nil => simpa [joinSep] using congrArg (c :: ·) ih
        | cons r2 rs2 => simpa [joinSep] using congrArg (c :: ·) ih

/-- `startswith(p) and s[len(p)] == sep` says exactly that `s` is `p`, a
separator, then anything. -/
theorem isPrefixOf_getElem_sep_iff {pp tp : PyStr} :
    (pp.isPrefixOf tp ∧ tp[pp.length]? = some psep) ↔ ∃ r, tp = pp ++ psep :: r := by
  constructor
  · rintro ⟨hpre, hidx⟩
    obtain ⟨s, rfl⟩ := List.isPrefixOf_iff_prefix.mp hpre
    rw [List.getElem?_append_right (le_refl _)] at hidx
    simp only [Nat.sub_self] at hidx
    cases s with
    | nil => simp at hidx
    | cons x s =>
      simp only [List.getElem?_cons_zero, Option.some.injEq] at hidx
      exact ⟨s, by rw [hidx]⟩
  · rintro ⟨r, rfl⟩
    refine ⟨List.isPrefixOf_iff_prefix.mpr ⟨psep :: r, rfl⟩, ?_⟩
    rw [List.getElem?_append_right (le_refl _)]
    simp

/-- Splitting a concatenation at a separator absent from both halves is
unambiguous: the parts before and after the separator are determined. -/
theorem append_sep_inj {sep : Char} {x y a b : List Char}
    (hx : sep ∉ x) (hy : sep ∉ y) (h : x ++ sep :: a = y ++ sep :: b) :
    x = y ∧ a = b := by
  induction x generalizing y with
  | nil =>
    cases y with
    | nil => simpa using h
    | cons d y =>
      simp only [List.nil_append, List.cons_append, List.cons.injEq] at h
      exact absurd (h.1 ▸ List.mem_cons_self d y) hy
  | cons c x ih =>
    cases y with
    | nil =>
      simp only [List.cons_append, List.nil_append, List.cons.injEq] at h
      exact absurd (h.1 ▸ List.mem_cons_self c x) hx
    | cons d y =>
      simp only [List.cons_append, List.cons.injEq] at h
      have hx' : sep ∉ x := fun hs => hx (List.mem_cons_of_mem c hs)
      have hy' : sep ∉ y := fun hs => hy (List.mem_cons_of_mem d hs)
      obtain ⟨h1, h2⟩ := ih hx' hy' h.2
      exact ⟨by rw [h.1, h1], h2⟩

/-- C3: pattern matching is prefix-safe. For canonical keys `tpath:tname` and
patterns `ppath:pname` (components colon-free), `match` returns true exactly
when the pattern name is `...` and `tpath` equals `ppath` or extends it across
a path separator, or the pattern name is `*` and the paths are equal, or the
two strings are equal; and the four concrete examples from the specification
evaluate as stated. -/
theorem match_prefix_safe (tp tn pp pn : PyStr)
    (htp : ':' ∉ tp) (htn : ':' ∉ tn) (hpp : ':' ∉ pp) (hpn : ':' ∉ pn) :
    (matchTarget (tp ++ ':' :: tn) (pp ++ ':' :: pn) = some true ↔
      ((pn = pstr "..." ∧ (tp = pp ∨ ∃ r, tp = pp ++ psep :: r)) ∨
       (pn = pstr "*" ∧ tp = pp) ∨
       tp ++ ':' :: tn = pp ++ ':' :: pn))
    ∧ matchTarget (pstr "foo2:bar") (pstr "foo:...") = some false
    ∧ matchTarget (pstr "foo/baz:bar") (pstr "foo:...") = some true
    ∧ matchTarget (pstr "foo:bar") (pstr "foo:*") = some true
    ∧ matchTarget (pstr "foo/x:bar") (pstr "foo:*") = some false := by
  refine ⟨?_, by decide, by decide, by decide, by decide⟩
  have hsplit₁ : splitOn ':' (tp ++ ':' :: tn) = [tp, tn] := by
    rw [splitOn_append, splitOn_eq_single htp, splitOn_eq_single htn]; rfl
  have hsplit₂ : splitOn ':' (pp ++ ':' :: pn) = [pp, pn] := by
    rw [splitOn_append, splitOn_eq_single hpp, splitOn_eq_single hpn]; rfl
  simp only [matchTarget, hsplit₁, hsplit₂]
  by_cases hdots : pn = pstr "..."
  · simp only [if_pos hdots, Option.some.injEq]
    rw [decide_eq_true_iff]
    constructor
    · rintro (h | h)
      · exact Or.inl ⟨hdots, Or.inl h⟩
      · exact Or.inl ⟨hdots, Or.inr (isPrefixOf_getElem_sep_iff.mp h)⟩
    · rintro (⟨-, h | h⟩ | ⟨hstar, -⟩ | heq)
      · exact Or.inl h
      · exact Or.inr (isPrefixOf_getElem_sep_iff.mpr h)
      · exact absurd (hdots ▸ hstar) (by decide)
      · exact Or.inl (append_sep_inj htp hpp heq).1
  · by_cases hstar : pn = pstr "*"
    · simp only [if_neg hdots, if_pos hstar, Option.some.injEq]
      rw [decide_eq_true_iff]
      constructor
      · intro h
        exact Or.inr (Or.inl ⟨hstar, h⟩)
      · rintro (⟨hd, -⟩ | ⟨-, h⟩ | heq)
        · exact absurd (hdots hd).elim id
        · exact h
        · exact (append_sep_inj htp hpp heq).1
    · simp only [if_neg hdots, if_neg hstar, Option.some.injEq]
      rw [decide_eq_true_iff]
      constructor
      · intro h
        exact Or.inr (Or.inr h)
      · rintro (⟨hd, -⟩ | ⟨hs, -⟩ | heq)
        · exact absurd hd hdots
        · exact absurd hs hstar
        · exact heq

theorem normStep_normed {isl : Nat} {acc : List PyStr} {comp : PyStr}
    (hacc : ∀ c ∈ acc, NormedComp c) (hcomp : psep ∉ comp) :
    ∀ c ∈ normStep isl acc comp, NormedComp c := by
  intro c hc
  by_cases h1 : comp = [] ∨ comp = pstr "."
  · rw [normStep, if_pos h1] at hc
    exact hacc c hc
  · by_cases h2 : comp ≠ pstr ".." ∨ (isl = 0 ∧ acc = []) ∨ acc.getLast? = some (pstr "..")
    · rw [normStep, if_neg h1, if_pos h2] at hc
      rcases List.mem_append.mp hc with h | h
      · exact hacc c h
      · rw [List.mem_singleton] at h
        subst h
        push_neg at h1
        exact ⟨h1.1, h1.2, hcomp⟩
    · by_cases h3 : acc ≠ []
      · rw [normStep, if_neg h1, if_neg h2, if_pos h3] at hc
        exact hacc c (List.dropLast_subset acc hc)
      · rw [normStep, if_neg h1, if_neg h2, if_neg h3] at hc
        exact hacc c hc

theorem normStep_shape {isl : Nat} {acc : List PyStr} {comp : PyStr}
    (hacc : ReducedShape isl acc) : ReducedShape isl (normStep isl acc comp) := by
  by_cases h1 : comp = [] ∨ comp = pstr "."
  · rwa [normStep, if_pos h1]
  · by_cases h0 : isl = 0
    · subst h0
      rw [ReducedShape, if_pos rfl] at hacc ⊢
      obtain ⟨k, r, rfl, hr⟩ := hacc
      by_cases h2 : comp ≠ pstr ".." ∨ (0 = 0 ∧ List.replicate k (pstr "..") ++ r = []) ∨
          (List.replicate k (pstr "..") ++ r).getLast? = some (pstr "..")
      · rw [normStep, if_neg h1, if_pos h2]
        by_cases hdd : comp = pstr ".."
        · subst hdd
          rcases h2 with h2 | ⟨-, h2⟩ | h2
          · exact absurd rfl h2
          · rcases List.append_eq_nil.mp h2 with ⟨hk, hrr⟩
            refine ⟨1, [], ?_, by simp⟩
            simp [hk, hrr]
          · have hrnil : r = [] := by
              by_contra hrne
              rw [List.getLast?_append_of_ne_nil _ hrne] at h2
              exact hr (List.mem_of_mem_getLast? h2)
            subst hrnil
            refine ⟨k + 1, [], ?_, by simp⟩
            rw [List.append_nil, List.append_nil]
            exact (List.replicate_succ' k (pstr "..")).symm
        · exact ⟨k, r ++ [comp], by simp, by
            intro hmem
            rcases List.mem_append.mp hmem with h | h
            · exact hr h
            · rw [List.mem_singleton] at h
              exact hdd h.symm⟩
      · have haccne : List.replicate k (pstr "..") ++ r ≠ [] := fun hn =>
          h2 (Or.inr (Or.inl ⟨rfl, hn⟩))
        have hlast : (List.replicate k (pstr "..") ++ r).getLast? ≠ some (pstr "..") :=
          fun hx => h2 (Or.inr (Or.inr hx))
        rw [normStep, if_neg h1, if_neg h2, if_pos haccne]
        have hrne : r ≠ [] := by
          by_contra hrnil
          subst hrnil
          rcases Nat.eq_zero_or_pos k with hk | hk
          · subst hk; simp at haccne
          · obtain ⟨k', rfl⟩ := Nat.exists_eq_succ_of_ne_zero (Nat.pos_iff_ne_zero.mp hk)
            rw [List.append_nil, List.replicate_succ' k', List.getLast?_concat] at hlast
            exact hlast rfl
        rw [List.dropLast_append_of_ne_nil _ hrne]
        exact ⟨k, r.dropLast, rfl, fun hmem => hr (List.dropLast_subset r hmem)⟩
    · rw [ReducedShape, if_neg h0] at hacc ⊢
      by_cases h2 : comp ≠ pstr ".." ∨ (isl = 0 ∧ acc = []) ∨ acc.getLast? = some (pstr "..")
      · rw [normStep, if_neg h1, if_pos h2]
        intro hmem
        rcases List.mem_append.mp hmem with h | h
        · exact hacc h
        · rw [List.mem_singleton] at h
          rcases h2 with h2 | ⟨hz, -⟩ | h2
          · exact h2 h.symm
          · exact h0 hz
          · exact hacc (List.mem_of_mem_getLast? h2)
      · by_cases h3 : acc ≠ []
        · rw [normStep, if_neg h1, if_neg h2, if_pos h3]
          exact fun hmem => hacc (List.dropLast_subset acc hmem)
        · rwa [normStep, if_neg h1, if_neg h2, if_neg h3]

theorem foldl_normStep_normed {isl : Nat} {comps : List PyStr}
    (h : ∀ c ∈ comps, psep ∉ c) :
    ∀ acc, (∀ c ∈ acc, NormedComp c) →
      ∀ c ∈ comps.foldl (normStep isl) acc, NormedComp c := by
  induction comps with
  | nil => intro acc hacc; simpa using hacc
  | cons x comps ih =>
    intro acc hacc
    rw [List.foldl_cons]
    exact ih (fun c hc => h c (List.mem_cons_of_mem x hc))
      _ (normStep_normed hacc (h x (List.mem_cons_self x comps)))

theorem foldl_normStep_shape {isl : Nat} {comps : List PyStr} :
    ∀ acc, ReducedShape isl acc → ReducedShape isl (comps.foldl (normStep isl) acc) := by
  induction comps with
  | nil => intro acc hacc; simpa using hacc
  | cons x comps ih =>
    intro acc hacc
    rw [List.foldl_cons]
    exact ih _ (normStep_shape hacc)

theorem foldl_normStep_nondots {isl : Nat} {l : List PyStr}
    (h : ∀ c ∈ l, c ≠ [] ∧ c ≠ pstr "." ∧ c ≠ pstr "..") :
    ∀ acc, l.foldl (normStep isl) acc = acc ++ l := by
  induction l with
  | nil => simp
  | cons c l ih =>
    intro acc
    obtain ⟨h1, h2, h3⟩ := h c (List.mem_cons_self c l)
    have hstep : normStep isl acc c = acc ++ [c] := by
      rw [normStep, if_neg (by tauto), if_pos (Or.inl h3)]
    rw [List.foldl_cons, hstep, ih (fun c hc => h c (List.mem_cons_of_mem _ hc)),
      List.append_assoc]
    rfl

theorem foldl_normStep_dotdots (k : Nat) :
    ∀ j, (List.replicate k (pstr "..")).foldl (normStep 0) (List.replicate j (pstr ".."))
      = List.replicate (j + k) (pstr "..") := by
  induction k with
  | zero => simp
  | succ k ih =>
    intro j
    have hstep : normStep 0 (List.replicate j (pstr "..")) (pstr "..")
        = List.replicate (j + 1) (pstr "..") := by
      have hcover : (pstr ".." ≠ pstr "..") ∨ (0 = 0 ∧ List.replicate j (pstr "..") = []) ∨
          (List.replicate j (pstr "..")).getLast? = some (pstr "..") := by
        cases j with
        | zero => exact Or.inr (Or.inl ⟨rfl, rfl⟩)
        | succ j =>
          refine Or.inr (Or.inr ?_)
          rw [List.replicate_succ' j, List.getLast?_concat]
      rw [normStep, if_neg (by decide), if_pos hcover, List.replicate_succ' j]
    rw [List.replicate_succ, List.foldl_cons, hstep, ih (j + 1)]
    congr 1
    omega

theorem foldl_normStep_reduced {isl : Nat} {out : List PyStr}
    (hn : ∀ c ∈ out, NormedComp c) (hs : ReducedShape isl out) :
    out.foldl (normStep isl) [] = out := by
  by_cases h0 : isl = 0
  · subst h0
    rw [ReducedShape, if_pos rfl] at hs
    obtain ⟨k, r, rfl, hr⟩ := hs
    rw [List.foldl_append]
    have hdd := foldl_normStep_dotdots k 0
    rw [List.replicate_zero] at hdd
    rw [hdd, Nat.zero_add]
    rw [foldl_normStep_nondots (fun c hc => ?_) _]
    obtain ⟨hc1, hc2, -⟩ := hn c (List.mem_append_right _ hc)
    exact ⟨hc1, hc2, fun hdd2 => hr (hdd2 ▸ hc)⟩
  · rw [ReducedShape, if_neg h0] at hs
    rw [foldl_normStep_nondots (fun c hc => ?_) _, List.nil_append]
    obtain ⟨hc1, hc2, -⟩ := hn c hc
    exact ⟨hc1, hc2, fun hdd2 => hs (hdd2 ▸ hc)⟩

theorem splitOn_joinSep {sep : Char} {cs : List PyStr} (hne : cs ≠ [])
    (h : ∀ c ∈ cs, sep ∉ c) : splitOn sep (joinSep sep cs) = cs := by
  induction cs with
  | nil => exact absurd rfl hne
  | cons c cs ih =>
    cases cs with
    | nil => exact splitOn_eq_single (h c (List.mem_cons_self c []))
    | cons c2 cs2 =>
      have : joinSep sep (c :: c2 :: cs2) = c ++ sep :: joinSep sep (c2 :: cs2) := rfl
      rw [this, splitOn_append, splitOn_eq_single (h c (List.mem_cons_self c _)),
        ih (by simp) (fun x hx => h x (List.mem_cons_of_mem c hx))]
      rfl

theorem joinSep_eq_nil_iff {sep : Char} {cs : List PyStr} (h : ∀ c ∈ cs, c ≠ []) :
    joinSep sep cs = [] ↔ cs = [] := by
  cases cs with
  | nil => simp [joinSep]
  | cons c cs =>
    cases cs with
    | nil => simpa [joinSep] using h c (List.mem_cons_self c [])
    | cons c2 cs2 =>
      have : joinSep sep (c :: c2 :: cs2) = c ++ sep :: joinSep sep (c2 :: cs2) := rfl
      rw [this]
      simp [h c (List.mem_cons_self c _)]

theorem joinSep_take_one {sep : Char} {o : PyStr} {os : List PyStr} (ho : o ≠ []) :
    (joinSep sep (o :: os)).take 1 = o.take 1 := by
  cases os with
  | nil => rfl
  | cons o2 os2 =>
    have : joinSep sep (o :: o2 :: os2) = o ++ sep :: joinSep sep (o2 :: os2) := rfl
    rw [this, List.take_append_of_le_length]
    exact Nat.one_le_iff_ne_zero.mpr (fun hz => ho (List.eq_nil_of_length_eq_zero hz))

theorem normIsl_cases (p : PyStr) : normIsl p = 0 ∨ normIsl p = 1 ∨ normIsl p = 2 := by
  rw [normIsl]
  split
  · split
    · exact Or.inr (Or.inr rfl)
    · exact Or.inr (Or.inl rfl)
  · exact Or.inl rfl

theorem normComps_normed (p : PyStr) : ∀ c ∈ normComps p, NormedComp c :=
  foldl_normStep_normed (fun c hc => not_mem_splitOn c hc) [] (by simp)

theorem normComps_shape (p : PyStr) : ReducedShape (normIsl p) (normComps p) := by
  apply foldl_normStep_shape
  rw [ReducedShape]
  split
  · exact ⟨0, [], rfl, by simp⟩
  · simp

theorem splitOn_replicate_sep (sep : Char) (n : Nat) (q : PyStr) :
    splitOn sep (List.replicate n sep ++ q) = List.replicate n [] ++ splitOn sep q := by
  induction n with
  | zero => simp
  | succ n ih =>
    rw [List.replicate_succ, List.cons_append, List.replicate_succ]
    simp [splitOn, ih]

theorem foldl_normStep_empties (isl n : Nat) (acc : List PyStr) :
    (List.replicate n ([] : PyStr)).foldl (normStep isl) acc = acc := by
  induction n generalizing acc with
  | zero => rfl
  | succ n ih =>
    rw [List.replicate_succ, List.foldl_cons,
      show normStep isl acc [] = acc from by rw [normStep, if_pos (Or.inl rfl)]]
    exact ih acc

theorem normpath_eq {p : PyStr} (hp : p ≠ []) :
    normpath p = if normIsl p = 0 ∧ normComps p = [] then pstr "."
      else List.replicate (normIsl p) psep ++ joinSep psep (normComps p) := by
  rw [normpath, if_neg hp]
  by_cases h : normIsl p = 0 ∧ normComps p = []
  · rw [if_pos h, if_pos]
    rw [h.1, h.2]
    rfl
  · rw [if_neg h, if_neg]
    intro hz
    rcases List.append_eq_nil.mp hz with ⟨h1, h2⟩
    refine h ⟨?_, ?_⟩
    · have := congrArg List.length h1
      simpa using this
    · exact (joinSep_eq_nil_iff (fun c hc => (normComps_normed p c hc).1)).mp h2

theorem joinSep_cons_head {out : List PyStr} (hne : out ≠ [])
    (hn : ∀ c ∈ out, NormedComp c) :
    ∃ ch t, joinSep psep out = ch :: t ∧ ch ≠ psep := by
  obtain ⟨o, os, rfl⟩ : ∃ o os, out = o :: os := by
    cases out with
    | nil => exact absurd rfl hne
    | cons o os => exact ⟨o, os, rfl⟩
  obtain ⟨ho1, -, ho3⟩ := hn o (List.mem_cons_self o os)
  obtain ⟨ch, o', rfl⟩ : ∃ ch o', o = ch :: o' := by
    cases o with
    | nil => exact absurd rfl ho1
    | cons ch o' => exact ⟨ch, o', rfl⟩
  have htake := @joinSep_take_one psep (ch :: o') os ho1
  cases hj : joinSep psep ((ch :: o') :: os) with
  | nil => rw [hj] at htake; simp at htake
  | cons c t =>
    rw [hj] at htake
    simp only [List.take_succ_cons, List.take_zero] at htake
    have hc : c = ch := by simpa using htake
    subst hc
    exact ⟨c, t, rfl, fun hcp => ho3 (hcp ▸ List.mem_cons_self c o')⟩

/-- Re-normalizing a `normpath` result that has at least one component is the
identity. -/
theorem normpath_fixed {isl : Nat} {out : List PyStr}
    (his : isl = 0 ∨ isl = 1 ∨ isl = 2) (hne : out ≠ [])
    (hn : ∀ c ∈ out, NormedComp c) (hs : ReducedShape isl out) :
    normpath (List.replicate isl psep ++ joinSep psep out)
      = List.replicate isl psep ++ joinSep psep out := by
  obtain ⟨ch, t, hj, hch⟩ := joinSep_cons_head hne hn
  have hjne : joinSep psep out ≠ [] := by rw [hj]; simp
  have hnpne : List.replicate isl psep ++ joinSep psep out ≠ [] := by
    intro hz
    exact hjne (List.append_eq_nil.mp hz).2
  have hisl : normIsl (List.replicate isl psep ++ joinSep psep out) = isl := by
    rcases his with rfl | rfl | rfl
    · rw [List.replicate_zero, List.nil_append, hj]
      simp [normIsl, hch]
    · rw [show List.replicate 1 psep ++ joinSep psep out = psep :: joinSep psep out from rfl, hj]
      simp [normIsl, hch]
    · rw [show List.replicate 2 psep ++ joinSep psep out
        = psep :: psep :: joinSep psep out from rfl, hj]
      simp [normIsl, hch]
  have hsplit : splitOn psep (List.replicate isl psep ++ joinSep psep out)
      = List.replicate isl [] ++ out := by
    rw [splitOn_replicate_sep, splitOn_joinSep hne (fun c hc => (hn c hc).2.2)]
  have hcomps : normComps (List.replicate isl psep ++ joinSep psep out) = out := by
    rw [normComps, hisl, hsplit, List.foldl_append, foldl_normStep_empties,
      foldl_normStep_reduced hn hs]
  rw [normpath_eq hnpne, hisl, hcomps, if_neg]
  rintro ⟨-, hz⟩
  exact hne hz

/-- POSIX `normpath` is idempotent. -/
theorem normpath_idem (p : PyStr) : normpath (normpath p) = normpath p := by
  by_cases hp : p = []
  · subst hp
    decide
  · rw [normpath_eq hp]
    by_cases hout : normComps p = []
    · rcases normIsl_cases p with h0 | h1 | h2
      · rw [if_pos ⟨h0, hout⟩]
        decide
      · rw [if_neg (by rw [h1]; simp), h1, hout]
        decide
      · rw [if_neg (by rw [h2]; simp), h2, hout]
        decide
    · rw [if_neg (fun hx => hout hx.2)]
      exact normpath_fixed (normIsl_cases p) hout (normComps_normed p) (normComps_shape p)

/-- `normpath` of a relative path is nonempty and relative. -/
theorem normpath_rel {p : PyStr} (h : p.take 1 ≠ [psep]) :
    (normpath p).take 1 ≠ [psep] ∧ normpath p ≠ [] := by
  by_cases hp : p = []
  · subst hp
    exact ⟨by decide, by decide⟩
  · have hisl : normIsl p = 0 := by rw [normIsl, if_neg h]
    rw [normpath_eq hp, hisl]
    by_cases hout : normComps p = []
    · rw [if_pos ⟨rfl, hout⟩]
      exact ⟨by decide, by decide⟩
    · rw [if_neg (fun hx => hout hx.2)]
      obtain ⟨ch, t, hj, hch⟩ := joinSep_cons_head hout (normComps_normed p)
      rw [List.replicate_zero, List.nil_append, hj]
      refine ⟨?_, by simp⟩
      simp [hch]

/-- `normpath` of a single-leading-slash absolute path keeps exactly one
leading slash. -/
theorem normpath_abs_single {p : PyStr} (h1 : p.take 1 = [psep])
    (h2 : p.take 2 ≠ [psep, psep]) :
    (normpath p).take 1 = [psep] ∧ (normpath p).take 2 ≠ [psep, psep] := by
  have hp : p ≠ [] := by
    intro hz
    rw [hz] at h1
    simp at h1
  have hisl : normIsl p = 1 := by
    rw [normIsl, if_pos h1, if_neg]
    rintro ⟨hx, -⟩
    exact h2 hx
  rw [normpath_eq hp, hisl, if_neg (by simp)]
  by_cases hout : normComps p = []
  · rw [hout]
    exact ⟨by decide, by decide⟩
  · obtain ⟨ch, t, hj, hch⟩ := joinSep_cons_head hout (normComps_normed p)
    rw [show List.replicate 1 psep ++ joinSep psep (normComps p)
      = psep :: joinSep psep (normComps p) from rfl, hj]
    refine ⟨rfl, ?_⟩
    simp [hch]

theorem take_one_eq_iff {c : Char} {x : PyStr} : x.take 1 = [c] ↔ ∃ t, x = c :: t := by
  cases x with
  | nil => simp
  | cons a t =>
    constructor
    · intro h
      rw [List.take_succ_cons, List.take_zero] at h
      injection h with h1 hx2
      exact ⟨t, by rw [h1]⟩
    · rintro ⟨u, hu⟩
      injection hu with h1 hx2
      rw [List.take_succ_cons, List.take_zero, h1]

theorem take_two_eq_iff {a b : Char} {x : PyStr} :
    x.take 2 = [a, b] ↔ ∃ t, x = a :: b :: t := by
  cases x with
  | nil => simp
  | cons c x =>
    cases x with
    | nil => simp
    | cons d x =>
      constructor
      · intro h
        rw [List.take_succ_cons, List.take_succ_cons, List.take_zero] at h
        injection h with h1 h2
        injection h2 with h2 hx3
        exact ⟨x, by rw [h1, h2]⟩
      · rintro ⟨u, hu⟩
        injection hu with h1 h2
        injection h2 with h2 hx3
        rw [List.take_succ_cons, List.take_succ_cons, List.take_zero, h1, h2]

theorem singleton_isPrefixOf_iff {c : Char} {x : PyStr} :
    [c].isPrefixOf x = true ↔ ∃ t, x = c :: t := by
  rw [List.isPrefixOf_iff_prefix]
  constructor
  · rintro ⟨t, rfl⟩; exact ⟨t, rfl⟩
  · rintro ⟨t, rfl⟩; exact ⟨t, rfl⟩

theorem double_isPrefixOf_iff {x : PyStr} :
    (pstr "//").isPrefixOf x = true ↔ ∃ t, x = psep :: psep :: t := by
  rw [List.isPrefixOf_iff_prefix]
  constructor
  · rintro ⟨t, rfl⟩; exact ⟨t, rfl⟩
  · rintro ⟨t, rfl⟩; exact ⟨t, rfl⟩

theorem joinSep_concat {sep : Char} {L : List PyStr} {z : PyStr} (hL : L ≠ []) :
    joinSep sep (L ++ [z]) = joinSep sep L ++ sep :: z := by
  induction L with
  | nil => exact absurd rfl hL
  | cons x L ih =>
    cases L with
    | nil => rfl
    | cons y L2 =>
      have h1 : joinSep sep ((x :: y :: L2) ++ [z])
          = x ++ sep :: joinSep sep ((y :: L2) ++ [z]) := rfl
      have h2 : joinSep sep (x :: y :: L2) = x ++ sep :: joinSep sep (y :: L2) := rfl
      rw [h1, h2, ih (by simp), List.append_assoc]
      rfl

theorem rsplitColon_spec {t : PyStr} (h : ':' ∈ t) :
    t = (rsplitColon t).1 ++ ':' :: (rsplitColon t).2 ∧ ':' ∉ (rsplitColon t).2 := by
  rcases List.eq_nil_or_concat (splitOn ':' t) with hnil | ⟨L, z, hLz⟩
  · exact absurd hnil (splitOn_ne_nil ':' t)
  · rw [List.concat_eq_append] at hLz
    have hz : z ∈ splitOn ':' t := by
      rw [hLz]
      exact List.mem_append_right L (List.mem_singleton.mpr rfl)
    have hzc : ':' ∉ z := not_mem_splitOn z hz
    cases hL : L with
    | nil =>
      rw [hL] at hLz
      have ht : t = z := by
        have := joinSep_splitOn ':' t
        rw [hLz] at this
        exact this.symm
      exact absurd (ht ▸ h) hzc
    | cons x L2 =>
      have hjoin : t = joinSep ':' (splitOn ':' t) := (joinSep_splitOn ':' t).symm
      have hr1 : (rsplitColon t).1 = joinSep ':' L := by
        show joinSep ':' (splitOn ':' t).dropLast = joinSep ':' L
        rw [hLz, List.dropLast_concat]
      have hr2 : (rsplitColon t).2 = z := by
        show (splitOn ':' t).getLastD [] = z
        rw [hLz]
        exact List.getLastD_concat [] z L
      refine ⟨?_, hr2 ▸ hzc⟩
      rw [hr1, hr2, ← joinSep_concat (hL ▸ List.cons_ne_nil x L2), ← hLz]
      exact hjoin

theorem rsplitColon_append {d n : PyStr} (hn : ':' ∉ n) :
    rsplitColon (d ++ ':' :: n) = (d, n) := by
  have hsp : splitOn ':' (d ++ ':' :: n) = splitOn ':' d ++ [n] := by
    rw [splitOn_append, splitOn_eq_single hn]
  show (joinSep ':' (splitOn ':' (d ++ ':' :: n)).dropLast,
      (splitOn ':' (d ++ ':' :: n)).getLastD []) = (d, n)
  rw [hsp, List.dropLast_concat, joinSep_splitOn, List.getLastD_concat]

/-- The path component of the split is a prefix of the input, and the name
component never contains a colon. -/
theorem splitPathName_spec (t : PyStr) :
    (∃ s, t = (splitPathName t).1 ++ s) ∧ ':' ∉ (splitPathName t).2 := by
  rw [splitPathName]
  by_cases hc : t.contains ':' = true
  · rw [if_pos hc]
    have h : ':' ∈ t := List.elem_iff.mp hc
    obtain ⟨heq, hnc⟩ := rsplitColon_spec h
    exact ⟨⟨':' :: (rsplitColon t).2, heq⟩, hnc⟩
  · rw [if_neg hc]
    by_cases hs : (pstr "...").isSuffixOf t = true
    · rw [if_pos hs]
      obtain ⟨pre, hpre⟩ := List.isSuffixOf_iff_suffix.mp hs
      constructor
      · refine ⟨pstr "...", ?_⟩
        show t = t.take (t.length - 3) ++ pstr "..."
        have hlen : t.length - 3 = pre.length := by
          rw [← hpre, List.length_append]
          rfl
        rw [hlen, ← hpre, List.take_left]
      · show ':' ∉ pstr "..."
        decide
    · rw [if_neg hs]
      refine ⟨⟨[], (List.append_nil t).symm⟩, ?_⟩
      show ':' ∉ pstr "*"
      decide

/-- When the input starts with a character that is neither `:` nor `.`, the
path component of the split starts with that same character. -/
theorem splitPathName_head {c : Char} {t0 : PyStr} (hc : c ≠ ':') (hd : c ≠ '.') :
    ∃ u, (splitPathName (c :: t0)).1 = c :: u := by
  obtain ⟨⟨s, hs⟩, -⟩ := splitPathName_spec (c :: t0)
  cases hp : (splitPathName (c :: t0)).1 with
  | cons d u =>
    rw [hp] at hs
    injection hs with h1 hx2
    exact ⟨u, by rw [h1]⟩
  | nil =>
    rw [hp] at hs
    rw [List.nil_append] at hs
    exfalso
    rw [splitPathName] at hp
    by_cases hcc : (c :: t0).contains ':' = true
    · rw [if_pos hcc] at hp
      have h : ':' ∈ c :: t0 := List.elem_iff.mp hcc
      obtain ⟨heq, -⟩ := rsplitColon_spec h
      rw [hp] at heq
      rw [List.nil_append] at heq
      injection heq with h1 hx2
      exact hc h1
    · rw [if_neg hcc] at hp
      by_cases hsf : (pstr "...").isSuffixOf (c :: t0) = true
      · rw [if_pos hsf] at hp
        obtain ⟨pre, hpre⟩ := List.isSuffixOf_iff_suffix.mp hsf
        have hlen : (c :: t0).length - 3 = pre.length := by
          rw [← hpre, List.length_append]
          rfl
        rw [hlen, ← hpre, List.take_left] at hp
        have hp2 : pre = [] := hp
        rw [hp2, List.nil_append] at hpre
        have hpre2 : ('.' : Char) :: pstr ".." = c :: t0 := hpre
        injection hpre2 with h1 hx2
        exact hd h1.symm
      · rw [if_neg hsf] at hp
        injection hp

/-- Joining two relative paths yields a relative path. -/
theorem pjoin_not_abs {a b : PyStr} (ha : ¬[psep].isPrefixOf a = true)
    (hb : ¬[psep].isPrefixOf b = true) : ¬[psep].isPrefixOf (pjoin a b) = true := by
  rw [pjoin, if_neg hb]
  by_cases h2 : a = [] ∨ a.getLast? = some psep
  · rw [if_pos h2]
    cases a with
    | nil => simpa using hb
    | cons a0 a' =>
      intro hx
      obtain ⟨t, ht⟩ := singleton_isPrefixOf_iff.mp hx
      injection ht with h1 hx2
      exact ha (singleton_isPrefixOf_iff.mpr ⟨a', by rw [h1]⟩)
  · rw [if_neg h2]
    cases a with
    | nil => exact absurd (Or.inl rfl) h2
    | cons a0 a' =>
      intro hx
      obtain ⟨t, ht⟩ := singleton_isPrefixOf_iff.mp hx
      injection ht with h1 hx2
      exact ha (singleton_isPrefixOf_iff.mpr ⟨a', by rw [h1]⟩)

/-- C9: a raw target string starting with a single `/` (and not `//`) is
invalid: `_normalize_one` reports exactly the `PathError` diagnostic naming
the target, and the string it returns is not a canonical key — re-normalizing
it from the root working directory reports an error again. -/
theorem normalize_root_path_error (target wd : PyStr)
    (h1 : [psep].isPrefixOf target = true) (h2 : ¬(pstr "//").isPrefixOf target = true) :
    (normalizeOne target wd).2 = [errMsgRoot target] ∧
    (normalizeOne (normalizeOne target wd).1 (pstr ".")).2 ≠ [] := by
  obtain ⟨t0, rfl⟩ := singleton_isPrefixOf_iff.mp h1
  have hres : resolveTarget (psep :: t0) wd = (psep :: t0, [errMsgRoot (psep :: t0)]) := by
    rw [resolveTarget, if_neg h2, if_pos h1]
  obtain ⟨u, hu⟩ := @splitPathName_head psep t0 (by decide) (by decide)
  have htake1 : (splitPathName (psep :: t0)).1.take 1 = [psep] := by
    rw [hu]
    rfl
  have htake2 : (splitPathName (psep :: t0)).1.take 2 ≠ [psep, psep] := by
    intro hx
    obtain ⟨w, hw⟩ := take_two_eq_iff.mp hx
    obtain ⟨⟨s, hs⟩, -⟩ := splitPathName_spec (psep :: t0)
    rw [hw] at hs
    exact h2 (double_isPrefixOf_iff.mpr ⟨w ++ s, by rw [hs]; rfl⟩)
  obtain ⟨hd1, hd2⟩ := normpath_abs_single htake1 htake2
  obtain ⟨d0, hd0⟩ := take_one_eq_iff.mp hd1
  have hres1 : (resolveTarget (psep :: t0) wd).1 = psep :: t0 := by rw [hres]
  have hres2 : (resolveTarget (psep :: t0) wd).2 = [errMsgRoot (psep :: t0)] := by rw [hres]
  have hkey : (normalizeOne (psep :: t0) wd).1
      = normpath (splitPathName (resolveTarget (psep :: t0) wd).1).1 ++
        ':' :: (splitPathName (resolveTarget (psep :: t0) wd).1).2 := rfl
  rw [hres1] at hkey
  have hv1 : [psep].isPrefixOf (normalizeOne (psep :: t0) wd).1 = true := by
    rw [singleton_isPrefixOf_iff, hkey, hd0]
    exact ⟨d0 ++ ':' :: (splitPathName (psep :: t0)).2, rfl⟩
  have hv2 : ¬(pstr "//").isPrefixOf (normalizeOne (psep :: t0) wd).1 = true := by
    intro hx
    obtain ⟨w, hw⟩ := double_isPrefixOf_iff.mp hx
    rw [hkey, hd0] at hw
    cases d0 with
    | nil =>
      injection hw with hw1 hw2
      injection hw2 with hw2b hw2c
      exact absurd hw2b (by decide)
    | cons e d1 =>
      injection hw with hw1 hw2
      injection hw2 with hw2b hw2c
      apply hd2
      rw [hd0, hw2b]
      rfl
  constructor
  · exact hres2
  · show (resolveTarget (normalizeOne (psep :: t0) wd).1 (pstr ".")).2 ≠ []
    rw [resolveTarget, if_neg hv2, if_pos hv1]
    simp

/-- C4 (as stated) is false: with a working directory other than `.` used for
both calls, re-normalizing an already-normalized target prepends the working
directory again. -/
theorem normalize_not_idem_counterexample :
    (normalizeOne (normalizeOne (pstr "a:b") (pstr "c")).1 (pstr "c")).1
      ≠ (normalizeOne (pstr "a:b") (pstr "c")).1 := by decide

/-- C4 (amended): for a valid target string (not absolute after optionally
stripping a `//` prefix) and a relative working directory, `_normalize_one`
reports no error, and re-normalizing its canonical result from the root
working directory `.` returns the same key with no error. -/
theorem normalize_idem (target wd : PyStr)
    (hv : ¬[psep].isPrefixOf
      (if (pstr "//").isPrefixOf target then target.drop 2 else target) = true)
    (hwd : ¬[psep].isPrefixOf wd = true) :
    (normalizeOne target wd).2 = [] ∧
    normalizeOne (normalizeOne target wd).1 (pstr ".") = ((normalizeOne target wd).1, []) := by
  have hres : (resolveTarget target wd).2 = []
      ∧ ¬[psep].isPrefixOf (resolveTarget target wd).1 = true := by
    rw [resolveTarget]
    by_cases hroot : (pstr "//").isPrefixOf target = true
    · rw [if_pos hroot]
      rw [if_pos hroot] at hv
      exact ⟨rfl, hv⟩
    · rw [if_neg hroot] at hv
      rw [if_neg hroot, if_neg hv]
      refine ⟨rfl, ?_⟩
      by_cases hwdd : wd ≠ pstr "."
      · rw [if_pos hwdd]
        exact pjoin_not_abs hwd hv
      · rw [if_neg hwdd]
        exact hv
  obtain ⟨herr, habs⟩ := hres
  have hnamec : ':' ∉ (splitPathName (resolveTarget target wd).1).2 :=
    (splitPathName_spec (resolveTarget target wd).1).2
  have hpathabs : (splitPathName (resolveTarget target wd).1).1.take 1 ≠ [psep] := by
    intro hx
    obtain ⟨u, hu⟩ := take_one_eq_iff.mp hx
    obtain ⟨⟨s, hs⟩, -⟩ := splitPathName_spec (resolveTarget target wd).1
    rw [hu] at hs
    exact habs (singleton_isPrefixOf_iff.mpr ⟨u ++ s, by rw [hs]; rfl⟩)
  obtain ⟨hd1, hdne⟩ := normpath_rel hpathabs
  refine ⟨herr, ?_⟩
  have hkey : (normalizeOne target wd).1
      = normpath (splitPathName (resolveTarget target wd).1).1 ++
        ':' :: (splitPathName (resolveTarget target wd).1).2 := rfl
  obtain ⟨e, d0, hed⟩ : ∃ e d0, normpath (splitPathName (resolveTarget target wd).1).1
      = e :: d0 := by
    cases hd : normpath (splitPathName (resolveTarget target wd).1).1 with
    | nil => exact absurd hd hdne
    | cons e d0 => exact ⟨e, d0, rfl⟩
  have henp : e ≠ psep := by
    intro hz
    apply hd1
    rw [hed, hz]
    rfl
  have hv1 : ¬[psep].isPrefixOf (normalizeOne target wd).1 = true := by
    intro hx
    obtain ⟨u, hu⟩ := singleton_isPrefixOf_iff.mp hx
    rw [hkey, hed] at hu
    injection hu with h1 hx2
    exact henp h1
  have hv2 : ¬(pstr "//").isPrefixOf (normalizeOne target wd).1 = true := by
    intro hx
    obtain ⟨u, hu⟩ := double_isPrefixOf_iff.mp hx
    rw [hkey, hed] at hu
    injection hu with h1 hx2
    exact henp h1
  have hres2 : resolveTarget (normalizeOne target wd).1 (pstr ".")
      = ((normalizeOne target wd).1, []) := by
    rw [resolveTarget, if_neg hv2, if_neg hv1, if_neg (by simp)]
  have hvc : (normalizeOne target wd).1.contains ':' = true := by
    apply List.elem_iff.mpr
    rw [hkey]
    exact List.mem_append_right _ (List.mem_cons_self ':' _)
  have hsplit2 : splitPathName (normalizeOne target wd).1
      = (normpath (splitPathName (resolveTarget target wd).1).1,
         (splitPathName (resolveTarget target wd).1).2) := by
    rw [splitPathName, if_pos hvc, hkey]
    exact rsplitColon_append hnamec
  have hfinal : normalizeOne (normalizeOne target wd).1 (pstr ".")
      = (normpath (splitPathName (normalizeOne target wd).1).1 ++
          ':' :: (splitPathName (normalizeOne target wd).1).2,
         (resolveTarget (normalizeOne target wd).1 (pstr ".")).2) := by
    rw [normalizeOne]
    rw [show (resolveTarget (normalizeOne target wd).1 (pstr ".")).1
      = (normalizeOne target wd).1 from by rw [hres2]]
  rw [hfinal, hsplit2, hres2, hkey, normpath_idem]

/-- Witness for pattern-match prefix safety at concrete components. -/
theorem match_prefix_safe_witness :
    (matchTarget (pstr "a/b" ++ ':' :: pstr "t") (pstr "a" ++ ':' :: pstr "...")
        = some true ↔
      ((pstr "..." = pstr "..." ∧
          (pstr "a/b" = pstr "a" ∨ ∃ r, pstr "a/b" = pstr "a" ++ psep :: r)) ∨
       (pstr "..." = pstr "*" ∧ pstr "a/b" = pstr "a") ∨
       pstr "a/b" ++ ':' :: pstr "t" = pstr "a" ++ ':' :: pstr "..."))
    ∧ matchTarget (pstr "foo2:bar") (pstr "foo:...") = some false
    ∧ matchTarget (pstr "foo/baz:bar") (pstr "foo:...") = some true
    ∧ matchTarget (pstr "foo:bar") (pstr "foo:*") = some true
    ∧ matchTarget (pstr "foo/x:bar") (pstr "foo:*") = some false :=
  match_prefix_safe (pstr "a/b") (pstr "t") (pstr "a") (pstr "...")
    (by decide) (by decide) (by decide) (by decide)

/-- Witness for the root-path error behaviour at a concrete target. -/
theorem normalize_root_path_error_witness :
    (normalizeOne (pstr "/abc") (pstr ".")).2 = [errMsgRoot (pstr "/abc")]
    ∧ (normalizeOne (normalizeOne (pstr "/abc") (pstr ".")).1 (pstr ".")).2 ≠ [] :=
  normalize_root_path_error (pstr "/abc") (pstr ".") (by decide) (by decide)

/-- Witness for amended normalization idempotence at a concrete target. -/
theorem normalize_idem_witness :
    (normalizeOne (pstr "a:b") (pstr "c")).2 = []
    ∧ normalizeOne (normalizeOne (pstr "a:b") (pstr "c")).1 (pstr ".")
        = ((normalizeOne (pstr "a:b") (pstr "c")).1, []) :=
  normalize_idem (pstr "a:b") (pstr "c") (by decide) (by decide)

theorem dictLookup_dictSet_self {α : Type} (m : List (PyStr × α)) (k : PyStr) (v : α) :
    dictLookup (dictSet m k v) k = some v := by
  induction m with
  | nil => simp [dictSet, dictLookup]
  | cons kv m ih =>
    rw [dictSet]
    by_cases h : kv.1 = k
    · rw [if_pos h, dictLookup, if_pos h]
    · rw [if_neg h, dictLookup, if_neg h]
      exact ih

theorem dictLookup_dictSet_ne {α : Type} (m : List (PyStr × α)) {k2 k : PyStr} (v : α)
    (h : k2 ≠ k) : dictLookup (dictSet m k2 v) k = dictLookup m k := by
  induction m with
  | nil => simp [dictSet, dictLookup, h]
  | cons kv m ih =>
    rw [dictSet]
    by_cases hh : kv.1 = k2
    · rw [if_pos hh, dictLookup, dictLookup, if_neg (hh ▸ h), if_neg (hh ▸ h)]
    · rw [if_neg hh, dictLookup, dictLookup]
      by_cases hk : kv.1 = k
      · rw [if_pos hk, if_pos hk]
      · rw [if_neg hk, if_neg hk]
        exact ih

/-- The equation of `_unify_dep` on a `#`-form dependency, for any registry. -/
theorem unifyDep_system_eq (selfPath selfFullname : PyStr) (cfg : PyVal)
    (db : List (PyStr × TargetCore)) :
    unifyDep selfPath selfFullname cfg db (pstr "#pthread")
      = .ok (pstr "#:pthread",
          if (dictLookup db (pstr "#:pthread")).isSome then db
          else dictSet db (pstr "#:pthread") (mkSystemLibrary cfg (pstr "#pthread"))) := rfl

/-- C5: dependency unification round-trip for a target at directory `a/b`:
`:t` resolves to `a/b:t`; `//a/b:t` resolves to `a/b:t`; and `#pthread`
resolves to `#:pthread` while registering a `SystemLibrary` target (type
`system_library`, key `#:pthread`) into the registry exactly when that key is
absent, a side effect that is idempotent under repeated calls. -/
theorem unify_dep_round_trip (fullname : PyStr) (cfg : PyVal)
    (db : List (PyStr × TargetCore)) :
    unifyDep (pstr "a/b") fullname cfg db (pstr ":t") = .ok (pstr "a/b:t", db)
    ∧ unifyDep (pstr "a/b") fullname cfg db (pstr "//a/b:t") = .ok (pstr "a/b:t", db)
    ∧ (∀ db2, unifyDep (pstr "a/b") fullname cfg db (pstr "#pthread")
          = .ok (pstr "#:pthread", db2) →
        (dictLookup db2 (pstr "#:pthread")).isSome = true
        ∧ (dictLookup db (pstr "#:pthread") = none →
            db2 = dictSet db (pstr "#:pthread") (mkSystemLibrary cfg (pstr "#pthread")))
        ∧ ((dictLookup db (pstr "#:pthread")).isSome = true → db2 = db)
        ∧ unifyDep (pstr "a/b") fullname cfg db2 (pstr "#pthread")
            = .ok (pstr "#:pthread", db2))
    ∧ (mkSystemLibrary cfg (pstr "#pthread")).key = pstr "#:pthread"
    ∧ (mkSystemLibrary cfg (pstr "#pthread")).type = pstr "system_library" := by
  refine ⟨rfl, rfl, ?_, rfl, rfl⟩
  intro db2 h
  rw [unifyDep_system_eq] at h
  have hdb2 : db2 = if (dictLookup db (pstr "#:pthread")).isSome then db
      else dictSet db (pstr "#:pthread") (mkSystemLibrary cfg (pstr "#pthread")) := by
    injection h with h1
    injection h1 with hfst hsnd
    exact hsnd.symm
  by_cases hs : (dictLookup db (pstr "#:pthread")).isSome = true
  · rw [if_pos hs] at hdb2
    subst hdb2
    refine ⟨hs, ?_, fun _ => rfl, ?_⟩
    · intro hnone
      rw [hnone] at hs
      simp at hs
    · rw [unifyDep_system_eq, if_pos hs]
  · rw [if_neg hs] at hdb2
    subst hdb2
    have hset : (dictLookup
        (dictSet db (pstr "#:pthread") (mkSystemLibrary cfg (pstr "#pthread")))
        (pstr "#:pthread")).isSome = true := by
      rw [dictLookup_dictSet_self]
      rfl
    refine ⟨hset, fun _ => rfl, fun hx => absurd hx hs, ?_⟩
    rw [unifyDep_system_eq, if_pos hset]

/-- Witness for the dependency-unification round-trip at a concrete registry. -/
theorem unify_dep_round_trip_witness :
    unifyDep (pstr "a/b") (pstr "//a/b:x") (.int 300) [] (pstr ":t")
        = .ok (pstr "a/b:t", [])
    ∧ unifyDep (pstr "a/b") (pstr "//a/b:x") (.int 300) [] (pstr "//a/b:t")
        = .ok (pstr "a/b:t", [])
    ∧ (∀ db2, unifyDep (pstr "a/b") (pstr "//a/b:x") (.int 300) [] (pstr "#pthread")
          = .ok (pstr "#:pthread", db2) →
        (dictLookup db2 (pstr "#:pthread")).isSome = true
        ∧ (dictLookup ([] : List (PyStr × TargetCore)) (pstr "#:pthread") = none →
            db2 = dictSet [] (pstr "#:pthread") (mkSystemLibrary (.int 300) (pstr "#pthread")))
        ∧ ((dictLookup ([] : List (PyStr × TargetCore)) (pstr "#:pthread")).isSome = true →
            db2 = [])
        ∧ unifyDep (pstr "a/b") (pstr "//a/b:x") (.int 300) db2 (pstr "#pthread")
            = .ok (pstr "#:pthread", db2))
    ∧ (mkSystemLibrary (.int 300) (pstr "#pthread")).key = pstr "#:pthread"
    ∧ (mkSystemLibrary (.int 300) (pstr "#pthread")).type = pstr "system_library" :=
  unify_dep_round_trip (pstr "//a/b:x") (.int 300) []

theorem contains_after_add (l : List PyStr) (k : PyStr) :
    (if l.contains k then l else l ++ [k]).contains k = true := by
  by_cases h : l.contains k = true
  · rw [if_pos h]
    exact h
  · rw [if_neg h]
    exact List.elem_iff.mpr (List.mem_append_right l (List.mem_singleton.mpr rfl))

/-- C8: resolving a location reference `$(location //a:b [tag])` appends the
canonical key `a:b` to `deps` and to `expanded_deps` exactly when it is not
already present, leaving existing entries and their order unchanged; the
returned type is the empty string when no output-type tag was captured; and
resolving the same reference a second time returns the same lists unchanged. -/
theorem add_location_reference (selfPath fullname : PyStr) (cfg : PyVal)
    (db : List (PyStr × TargetCore)) (deps expandedDeps : List PyStr)
    (mType : Option PyStr) :
    addLocationReferenceTarget selfPath fullname cfg db deps expandedDeps
        (pstr "//a:b") mType
      = .ok ((pstr "a:b", pstrip (mType.getD [])),
          (if deps.contains (pstr "a:b") then deps else deps ++ [pstr "a:b"]),
          (if expandedDeps.contains (pstr "a:b") then expandedDeps
           else expandedDeps ++ [pstr "a:b"]),
          db)
    ∧ (mType = none → pstrip (mType.getD []) = [])
    ∧ addLocationReferenceTarget selfPath fullname cfg db
        (if deps.contains (pstr "a:b") then deps else deps ++ [pstr "a:b"])
        (if expandedDeps.contains (pstr "a:b") then expandedDeps
         else expandedDeps ++ [pstr "a:b"])
        (pstr "//a:b") mType
      = .ok ((pstr "a:b", pstrip (mType.getD [])),
          (if deps.contains (pstr "a:b") then deps else deps ++ [pstr "a:b"]),
          (if expandedDeps.contains (pstr "a:b") then expandedDeps
           else expandedDeps ++ [pstr "a:b"]),
          db) := by
  have hunify : unifyDep selfPath fullname cfg db (pstr "//a:b")
      = .ok (pstr "a:b", db) := rfl
  refine ⟨?_, ?_, ?_⟩
  · rw [addLocationReferenceTarget, hunify]
  · rintro rfl
    rfl
  · rw [addLocationReferenceTarget, hunify]
    simp only [contains_after_add, if_true]

/-- Witness for the location-reference resolution with an untagged macro. -/
theorem add_location_reference_witness :
    addLocationReferenceTarget (pstr "x/y") (pstr "//x/y:z") (.int 300) []
        [pstr "p:q"] [pstr "p:q"] (pstr "//a:b") none
      = .ok ((pstr "a:b", pstrip ((none : Option PyStr).getD [])),
          (if [pstr "p:q"].contains (pstr "a:b") then [pstr "p:q"]
           else [pstr "p:q"] ++ [pstr "a:b"]),
          (if [pstr "p:q"].contains (pstr "a:b") then [pstr "p:q"]
           else [pstr "p:q"] ++ [pstr "a:b"]),
          [])
    ∧ ((none : Option PyStr) = none → pstrip ((none : Option PyStr).getD []) = [])
    ∧ addLocationReferenceTarget (pstr "x/y") (pstr "//x/y:z") (.int 300) []
        (if [pstr "p:q"].contains (pstr "a:b") then [pstr "p:q"]
         else [pstr "p:q"] ++ [pstr "a:b"])
        (if [pstr "p:q"].contains (pstr "a:b") then [pstr "p:q"]
         else [pstr "p:q"] ++ [pstr "a:b"])
        (pstr "//a:b") none
      = .ok ((pstr "a:b", pstrip ((none : Option PyStr).getD [])),
          (if [pstr "p:q"].contains (pstr "a:b") then [pstr "p:q"]
           else [pstr "p:q"] ++ [pstr "a:b"]),
          (if [pstr "p:q"].contains (pstr "a:b") then [pstr "p:q"]
           else [pstr "p:q"] ++ [pstr "a:b"]),
          []) :=
  add_location_reference (pstr "x/y") (pstr "//x/y:z") (.int 300) []
    [pstr "p:q"] [pstr "p:q"] none

/-- C2: source-ownership conflict resolution. When a target registers a
source path whose normalized location is already owned by a different target:
an owner that allows duplicate sources is displaced by the newcomer; an owner
that disallows duplicates is kept when the newcomer allows them; and when
both disallow duplicates the existing owner is kept while, per the configured
policy, the conflict diagnostic naming the source path and the prior owner is
emitted as an error under policy `error`, as exactly one warning under policy
`warning`, and not at all under any other policy. -/
theorem src_ownership_conflict (action path fullname : PyStr) (allowDup : Bool)
    (m : List (PyStr × (PyStr × Bool))) (src owner : PyStr) (ownerAllow : Bool)
    (hvalid : ¬(List.IsInfix (pstr "..") src ∨ [psep].isPrefixOf src = true))
    (hown : dictLookup m (normpath (pjoin path src)) = some (owner, ownerAllow))
    (hdiff : owner ≠ fullname) :
    (ownerAllow = true →
      checkSrcOwnership action path fullname allowDup m src
        = (dictSet m (normpath (pjoin path src)) (fullname, allowDup), [], []))
    ∧ (ownerAllow = false → allowDup = true →
      checkSrcOwnership action path fullname allowDup m src = (m, [], []))
    ∧ (ownerAllow = false → allowDup = false →
        (action = pstr "error" →
          checkSrcOwnership action path fullname allowDup m src
            = (m, [ownershipMsg src owner], []))
        ∧ (action = pstr "warning" →
          checkSrcOwnership action path fullname allowDup m src
            = (m, [], [ownershipMsg src owner]))
        ∧ (action ≠ pstr "error" → action ≠ pstr "warning" →
          checkSrcOwnership action path fullname allowDup m src = (m, [], []))) := by
  have hne : ((owner, ownerAllow) : PyStr × Bool) ≠ (fullname, allowDup) := fun hx =>
    hdiff (congrArg Prod.fst hx)
  have hbase : checkSrcOwnership action path fullname allowDup m src
      = if ownerAllow then
          (dictSet m (normpath (pjoin path src)) (fullname, allowDup), [], [])
        else if allowDup then (m, [], [])
        else if action = pstr "error" then (m, [ownershipMsg src owner], [])
        else if action = pstr "warning" then (m, [], [ownershipMsg src owner])
        else (m, [], []) := by
    simp only [checkSrcOwnership, if_neg hvalid, hown, if_pos hne, List.nil_append]
  refine ⟨?_, ?_, ?_⟩
  · intro h
    rw [hbase, if_pos h]
  · intro h1 h2
    rw [hbase, h1, h2]
    simp
  · intro h1 h2
    rw [hbase, h1, h2]
    refine ⟨?_, ?_, ?_⟩
    · intro ha
      simp [ha]
    · intro ha
      rw [ha, if_neg (show ¬pstr "warning" = pstr "error" by decide), if_pos rfl]
      simp
    · intro ha1 ha2
      simp [ha1, ha2]

/-- Witness for ownership-conflict resolution: concrete map, both targets
disallowing duplicates, policy `warning`. -/
theorem src_ownership_conflict_witness :
    (false = true →
      checkSrcOwnership (pstr "warning") (pstr "p") (pstr "//p:b") false
          [(normpath (pjoin (pstr "p") (pstr "x.src")), (pstr "//p:a", false))]
          (pstr "x.src")
        = (dictSet [(normpath (pjoin (pstr "p") (pstr "x.src")), (pstr "//p:a", false))]
            (normpath (pjoin (pstr "p") (pstr "x.src"))) (pstr "//p:b", false), [], []))
    ∧ (false = false → false = true →
      checkSrcOwnership (pstr "warning") (pstr "p") (pstr "//p:b") false
          [(normpath (pjoin (pstr "p") (pstr "x.src")), (pstr "//p:a", false))]
          (pstr "x.src")
        = ([(normpath (pjoin (pstr "p") (pstr "x.src")), (pstr "//p:a", false))], [], []))
    ∧ (false = false → false = false →
        (pstr "warning" = pstr "error" →
          checkSrcOwnership (pstr "warning") (pstr "p") (pstr "//p:b") false
              [(normpath (pjoin (pstr "p") (pstr "x.src")), (pstr "//p:a", false))]
              (pstr "x.src")
            = ([(normpath (pjoin (pstr "p") (pstr "x.src")), (pstr "//p:a", false))],
               [ownershipMsg (pstr "x.src") (pstr "//p:a")], []))
        ∧ (pstr "warning" = pstr "warning" →
          checkSrcOwnership (pstr "warning") (pstr "p") (pstr "//p:b") false
              [(normpath (pjoin (pstr "p") (pstr "x.src")), (pstr "//p:a", false))]
              (pstr "x.src")
            = ([(normpath (pjoin (pstr "p") (pstr "x.src")), (pstr "//p:a", false))], [],
               [ownershipMsg (pstr "x.src") (pstr "//p:a")]))
        ∧ (pstr "warning" ≠ pstr "error" → pstr "warning" ≠ pstr "warning" →
          checkSrcOwnership (pstr "warning") (pstr "p") (pstr "//p:b") false
              [(normpath (pjoin (pstr "p") (pstr "x.src")), (pstr "//p:a", false))]
              (pstr "x.src")
            = ([(normpath (pjoin (pstr "p") (pstr "x.src")), (pstr "//p:a", false))],
               [], []))) :=
  src_ownership_conflict (pstr "warning") (pstr "p") (pstr "//p:b") false
    [(normpath (pjoin (pstr "p") (pstr "x.src")), (pstr "//p:a", false))]
    (pstr "x.src") (pstr "//p:a") false (by decide) (by decide) (by decide)

theorem runRuleOp_invariant (gen : List PyStr) (st : RuleGenState) (op : RuleOp)
    (h1 : st.buildRules = none → st.ninjaCalls = 0) (h2 : st.ninjaCalls ≤ 1) :
    ((runRuleOp gen st op).buildRules = none → (runRuleOp gen st op).ninjaCalls = 0)
    ∧ (runRuleOp gen st op).ninjaCalls ≤ 1 := by
  obtain ⟨br, tg, dt, nc⟩ := st
  have hcore : ((getRules gen ⟨br, tg, dt, nc⟩).2.buildRules = none →
        (getRules gen ⟨br, tg, dt, nc⟩).2.ninjaCalls = 0)
      ∧ (getRules gen ⟨br, tg, dt, nc⟩).2.ninjaCalls ≤ 1 := by
    cases br with
    | some rules => exact ⟨h1, h2⟩
    | none =>
      refine ⟨fun hx => Option.noConfusion hx, ?_⟩
      show nc + 1 ≤ 1
      have h0 : nc = 0 := h1 rfl
      omega
  cases op with
  | rules => exact hcore
  | targetFile label => exact hcore
  | targetFiles => exact hcore

/-- C7: rule generation is idempotent and runs at most once: a second call of
`get_rules()` returns the identical record sequence and leaves the state
unchanged, and from a freshly constructed target any sequence of calls
through `get_rules`, `_get_target_file` and `_get_target_files` invokes the
subclass hook `ninja_rules` at most once. -/
theorem get_rules_idempotent (gen : List PyStr) (st : RuleGenState)
    (targets : List (PyStr × PyStr)) (deft : PyStr) (ops : List RuleOp) :
    (getRules gen (getRules gen st).2).1 = (getRules gen st).1
    ∧ (getRules gen (getRules gen st).2).2 = (getRules gen st).2
    ∧ (runRuleOps gen (freshRuleGenState targets deft) ops).ninjaCalls ≤ 1 := by
  obtain ⟨br, tg, dt, nc⟩ := st
  refine ⟨?_, ?_, ?_⟩
  · cases br <;> rfl
  · cases br <;> rfl
  · have key : ∀ (l : List RuleOp) (s : RuleGenState),
        (s.buildRules = none → s.ninjaCalls = 0) → s.ninjaCalls ≤ 1 →
        (runRuleOps gen s l).ninjaCalls ≤ 1 := by
      intro l
      induction l with
      | nil => intro s _ h2; exact h2
      | cons op l ih =>
        intro s h1 h2
        obtain ⟨h1t, h2t⟩ := runRuleOp_invariant gen s op h1 h2
        exact ih (runRuleOp gen s op) h1t h2t
    exact key ops (freshRuleGenState targets deft) (fun _ => rfl) (Nat.zero_le 1)

/-- C1: `rule_hash` is deterministic and independent of `data`: two registry
targets with identical type, name, srcs, deps, attr mapping, identical
dependency hashes and the same configuration digest and tool revision get the
same digest, and replacing the `data` mapping of a target never changes the
digest computed from it. -/
theorem rule_hash_deterministic (rev cfg : PyStr)
    (db1 db2 : List (PyStr × TargetCore)) (n1 n2 : Nat) (k1 k2 : PyStr)
    (t1 t2 : TargetCore) (dhs : List PyStr)
    (hl1 : dictLookup db1 k1 = some t1) (hl2 : dictLookup db2 k2 = some t2)
    (hty : t1.type = t2.type) (hna : t1.name = t2.name) (hsr : t1.srcs = t2.srcs)
    (_hde : t1.deps = t2.deps) (hat : t1.attr = t2.attr)
    (hd1 : t1.deps.mapM (ruleHashF rev cfg db1 n1) = some dhs)
    (hd2 : t2.deps.mapM (ruleHashF rev cfg db2 n2) = some dhs) :
    ruleHashF rev cfg db1 (n1 + 1) k1 = ruleHashF rev cfg db2 (n2 + 1) k2
    ∧ ∀ (t : TargetCore) (d : List (PyStr × PyVal)) (dh : List PyStr),
        ruleHashOf rev cfg { t with data := d } dh = ruleHashOf rev cfg t dh := by
  constructor
  · simp only [ruleHashF, hl1, hl2, hd1, hd2]
    rw [ruleHashOf, ruleHashOf, entropyStr, entropyStr, ruleEntropy, ruleEntropy,
      ruleEntropyBase, ruleEntropyBase, hty, hna, hsr, hat]
  · intro t d dh
    rfl

theorem dictUpdate_cons {α : Type} (m : List (PyStr × α)) (kv : PyStr × α)
    (u : List (PyStr × α)) :
    dictUpdate m (kv :: u) = dictUpdate (dictSet m kv.1 kv.2) u := rfl

theorem dictLookup_dictUpdate_not_mem {α : Type} {u : List (PyStr × α)}
    (m : List (PyStr × α)) {k : PyStr} (h : k ∉ u.map Prod.fst) :
    dictLookup (dictUpdate m u) k = dictLookup m k := by
  induction u generalizing m with
  | nil => rfl
  | cons kv u ih =>
    rw [dictUpdate_cons]
    have hhead : kv.1 ≠ k := fun hx =>
      h (hx ▸ List.mem_map_of_mem Prod.fst (List.mem_cons_self kv u))
    have htail : k ∉ u.map Prod.fst := fun hx =>
      h (by rw [List.map_cons]; exact List.mem_cons_of_mem kv.1 hx)
    rw [ih _ htail, dictLookup_dictSet_ne m kv.2 hhead]

theorem dictLookup_dictUpdate_mem {α : Type} {u : List (PyStr × α)}
    (m : List (PyStr × α)) {k : PyStr} {v : α}
    (hnd : (u.map Prod.fst).Nodup) (hmem : (k, v) ∈ u) :
    dictLookup (dictUpdate m u) k = some v := by
  induction u generalizing m with
  | nil => simp at hmem
  | cons kv u ih =>
    rw [dictUpdate_cons]
    rcases List.mem_cons.mp hmem with heq | htail
    · subst heq
      have hk : k ∉ u.map Prod.fst := by
        rw [List.map_cons] at hnd
        exact (List.nodup_cons.mp hnd).1
      rw [dictLookup_dictUpdate_not_mem _ hk]
      exact dictLookup_dictSet_self m k v
    · rw [List.map_cons] at hnd
      exact ih _ (List.nodup_cons.mp hnd).2 htail

theorem dictSet_append_left {α : Type} {pre : List (PyStr × α)} {k0 : PyStr}
    (rest : List (PyStr × α)) (v0 : α) (h : k0 ∈ pre.map Prod.fst) :
    dictSet (pre ++ rest) k0 v0 = dictSet pre k0 v0 ++ rest := by
  induction pre with
  | nil => simp at h
  | cons kv pre ih =>
    rw [List.cons_append, dictSet, dictSet]
    by_cases hh : kv.1 = k0
    · rw [if_pos hh, if_pos hh, List.cons_append]
    · rw [if_neg hh, if_neg hh, List.cons_append, ih]
      rw [List.map_cons] at h
      rcases List.mem_cons.mp h with hx | hx
      · exact absurd hx.symm hh
      · exact hx

theorem dictSet_append_right {α : Type} {pre : List (PyStr × α)} {k0 : PyStr}
    (rest : List (PyStr × α)) (v0 : α) (h : k0 ∉ pre.map Prod.fst) :
    dictSet (pre ++ rest) k0 v0 = pre ++ dictSet rest k0 v0 := by
  induction pre with
  | nil => rfl
  | cons kv pre ih =>
    have hhead : kv.1 ≠ k0 := fun hx =>
      h (hx ▸ List.mem_map_of_mem Prod.fst (List.mem_cons_self kv pre))
    have htail : k0 ∉ pre.map Prod.fst := fun hx =>
      h (by rw [List.map_cons]; exact List.mem_cons_of_mem kv.1 hx)
    rw [List.cons_append, dictSet, if_neg hhead, ih htail, List.cons_append]

theorem dictSet_keys_of_mem {α : Type} {pre : List (PyStr × α)} {k0 : PyStr} (v0 : α)
    (h : k0 ∈ pre.map Prod.fst) :
    (dictSet pre k0 v0).map Prod.fst = pre.map Prod.fst := by
  induction pre with
  | nil => simp at h
  | cons kv pre ih =>
    rw [dictSet]
    by_cases hh : kv.1 = k0
    · rw [if_pos hh]
      simp
    · rw [if_neg hh, List.map_cons, List.map_cons, ih]
      rw [List.map_cons] at h
      rcases List.mem_cons.mp h with hx | hx
      · exact absurd hx.symm hh
      · exact hx

/-- Updating a dict whose keys include `k` makes the result independent of
the value previously stored at `k`. -/
theorem dictUpdate_shadow {α : Type} (u : List (PyStr × α)) :
    ∀ (pre post : List (PyStr × α)) (k : PyStr) (v1 v2 : α),
      k ∉ pre.map Prod.fst → k ∈ u.map Prod.fst →
      dictUpdate (pre ++ (k, v1) :: post) u = dictUpdate (pre ++ (k, v2) :: post) u := by
  induction u with
  | nil =>
    intro pre post k v1 v2 hpre hk
    simp at hk
  | cons kv u ih =>
    intro pre post k v1 v2 hpre hk
    rw [dictUpdate_cons, dictUpdate_cons]
    by_cases hh : kv.1 = k
    · have hset : ∀ v : α, dictSet (pre ++ (k, v) :: post) kv.1 kv.2
          = pre ++ (k, kv.2) :: post := by
        intro v
        rw [hh, dictSet_append_right _ _ hpre, dictSet, if_pos rfl]
      rw [hset v1, hset v2]
    · have hk2 : k ∈ u.map Prod.fst := by
        rw [List.map_cons] at hk
        rcases List.mem_cons.mp hk with hx | hx
        · exact absurd hx.symm hh
        · exact hx
      by_cases hin : kv.1 ∈ pre.map Prod.fst
      · have hset : ∀ v : α, dictSet (pre ++ (k, v) :: post) kv.1 kv.2
            = dictSet pre kv.1 kv.2 ++ (k, v) :: post := fun v =>
          dictSet_append_left _ kv.2 hin
        rw [hset v1, hset v2]
        exact ih _ post k v1 v2 (fun hx =>
          hpre (dictSet_keys_of_mem kv.2 hin ▸ hx)) hk2
      · have hset : ∀ v : α, dictSet (pre ++ (k, v) :: post) kv.1 kv.2
            = pre ++ (k, v) :: dictSet post kv.1 kv.2 := by
          intro v
          rw [dictSet_append_right _ _ hin, dictSet,
            if_neg (fun hx => hh hx.symm)]
        rw [hset v1, hset v2]
        exact ih pre _ k v1 v2 hpre hk2

/-- C10: the kind-specific entropy mapping returned by `_rule_hash_entropy`
(by default the whole `attr` mapping) is merged into the entropy record after
the required entries, so an `attr` entry named `type`, `name`, `srcs`,
`deps`, `config` or `blade_revision` silently replaces the required entry of
the same name in the record that gets serialized and hashed; consequently the
hashed entropy string no longer depends on the shadowed required value. -/
theorem attr_shadows_required_entropy (rev cfg : PyStr) (t : TargetCore)
    (dhs : List PyStr) (k : PyStr) (v : PyVal)
    (hnd : (t.attr.map Prod.fst).Nodup) (hmem : (k, v) ∈ t.attr) :
    (k ∈ [pstr "type", pstr "name", pstr "srcs", pstr "deps", pstr "config",
        pstr "blade_revision"] →
      dictLookup (ruleEntropy rev cfg t dhs) k = some v)
    ∧ (k = pstr "type" → ∀ ty1 ty2 : PyStr,
        entropyStr rev cfg { t with type := ty1 } dhs
          = entropyStr rev cfg { t with type := ty2 } dhs)
    ∧ (k = pstr "name" → ∀ na1 na2 : PyStr,
        entropyStr rev cfg { t with name := na1 } dhs
          = entropyStr rev cfg { t with name := na2 } dhs)
    ∧ (k = pstr "srcs" → ∀ ss1 ss2 : List PyStr,
        entropyStr rev cfg { t with srcs := ss1 } dhs
          = entropyStr rev cfg { t with srcs := ss2 } dhs)
    ∧ (k = pstr "deps" → ∀ dh1 dh2 : List PyStr,
        entropyStr rev cfg t dh1 = entropyStr rev cfg t dh2)
    ∧ (k = pstr "config" → ∀ c1 c2 : PyStr,
        entropyStr rev c1 t dhs = entropyStr rev c2 t dhs)
    ∧ (k = pstr "blade_revision" → ∀ r1 r2 : PyStr,
        entropyStr r1 cfg t dhs = entropyStr r2 cfg t dhs) := by
  have hkmem : k ∈ t.attr.map Prod.fst := List.mem_map_of_mem Prod.fst hmem
  refine ⟨fun _ => dictLookup_dictUpdate_mem _ hnd hmem, ?_, ?_, ?_, ?_, ?_, ?_⟩
  · rintro rfl ty1 ty2
    exact congrArg (fun l => pyStrItems (sortByKey l))
      (dictUpdate_shadow t.attr
        [(pstr "blade_revision", PyVal.str rev), (pstr "config", PyVal.str cfg)]
        [(pstr "name", PyVal.str t.name), (pstr "srcs", PyVal.strList t.srcs),
         (pstr "deps", PyVal.strList dhs)]
        (pstr "type") (PyVal.str ty1) (PyVal.str ty2) (by simp only [List.map_cons, List.map_nil]; decide) hkmem)
  · rintro rfl na1 na2
    exact congrArg (fun l => pyStrItems (sortByKey l))
      (dictUpdate_shadow t.attr
        [(pstr "blade_revision", PyVal.str rev), (pstr "config", PyVal.str cfg),
         (pstr "type", PyVal.str t.type)]
        [(pstr "srcs", PyVal.strList t.srcs), (pstr "deps", PyVal.strList dhs)]
        (pstr "name") (PyVal.str na1) (PyVal.str na2) (by simp only [List.map_cons, List.map_nil]; decide) hkmem)
  · rintro rfl ss1 ss2
    exact congrArg (fun l => pyStrItems (sortByKey l))
      (dictUpdate_shadow t.attr
        [(pstr "blade_revision", PyVal.str rev), (pstr "config", PyVal.str cfg),
         (pstr "type", PyVal.str t.type), (pstr "name", PyVal.str t.name)]
        [(pstr "deps", PyVal.strList dhs)]
        (pstr "srcs") (PyVal.strList ss1) (PyVal.strList ss2) (by simp only [List.map_cons, List.map_nil]; decide) hkmem)
  · rintro rfl dh1 dh2
    exact congrArg (fun l => pyStrItems (sortByKey l))
      (dictUpdate_shadow t.attr
        [(pstr "blade_revision", PyVal.str rev), (pstr "config", PyVal.str cfg),
         (pstr "type", PyVal.str t.type), (pstr "name", PyVal.str t.name),
         (pstr "srcs", PyVal.strList t.srcs)]
        []
        (pstr "deps") (PyVal.strList dh1) (PyVal.strList dh2) (by simp only [List.map_cons, List.map_nil]; decide) hkmem)
  · rintro rfl c1 c2
    exact congrArg (fun l => pyStrItems (sortByKey l))
      (dictUpdate_shadow t.attr
        [(pstr "blade_revision", PyVal.str rev)]
        [(pstr "type", PyVal.str t.type), (pstr "name", PyVal.str t.name),
         (pstr "srcs", PyVal.strList t.srcs), (pstr "deps", PyVal.strList dhs)]
        (pstr "config") (PyVal.str c1) (PyVal.str c2) (by simp only [List.map_cons, List.map_nil]; decide) hkmem)
  · rintro rfl r1 r2
    exact congrArg (fun l => pyStrItems (sortByKey l))
      (dictUpdate_shadow t.attr
        []
        [(pstr "config", PyVal.str cfg), (pstr "type", PyVal.str t.type),
         (pstr "name", PyVal.str t.name), (pstr "srcs", PyVal.strList t.srcs),
         (pstr "deps", PyVal.strList dhs)]
        (pstr "blade_revision") (PyVal.str r1) (PyVal.str r2) (by simp only [List.map_cons, List.map_nil]; decide) hkmem)

/-- Witness for attr shadowing: an `attr` entry named `type` replaces the
required `type` entropy entry. -/
theorem attr_shadows_required_entropy_witness :
    ((pstr "type") ∈ [pstr "type", pstr "name", pstr "srcs", pstr "deps",
        pstr "config", pstr "blade_revision"] →
      dictLookup (ruleEntropy (pstr "r") (pstr "c")
          ⟨pstr ".", pstr "n", pstr ".:n", pstr "ty", [], [],
            [(pstr "type", PyVal.str (pstr "shadow"))], []⟩ [])
        (pstr "type") = some (PyVal.str (pstr "shadow")))
    ∧ (pstr "type" = pstr "type" → ∀ ty1 ty2 : PyStr,
        entropyStr (pstr "r") (pstr "c")
            { (⟨pstr ".", pstr "n", pstr ".:n", pstr "ty", [], [],
                [(pstr "type", PyVal.str (pstr "shadow"))], []⟩ : TargetCore) with
              type := ty1 } []
          = entropyStr (pstr "r") (pstr "c")
            { (⟨pstr ".", pstr "n", pstr ".:n", pstr "ty", [], [],
                [(pstr "type", PyVal.str (pstr "shadow"))], []⟩ : TargetCore) with
              type := ty2 } []) :=
  let t : TargetCore := ⟨pstr ".", pstr "n", pstr ".:n", pstr "ty", [], [],
    [(pstr "type", PyVal.str (pstr "shadow"))], []⟩
  ⟨(attr_shadows_required_entropy (pstr "r") (pstr "c") t [] (pstr "type")
      (PyVal.str (pstr "shadow")) (by decide) (by decide)).1,
   (attr_shadows_required_entropy (pstr "r") (pstr "c") t [] (pstr "type")
      (PyVal.str (pstr "shadow")) (by decide) (by decide)).2.1⟩

/-- Witness for hash determinism at a concrete one-target registry. -/
theorem rule_hash_deterministic_witness :
    ruleHashF (pstr "r") (pstr "c")
        [(pstr ".:n",
          ⟨pstr ".", pstr "n", pstr ".:n", pstr "ty", [pstr "s.c"], [], [], []⟩)]
        (0 + 1) (pstr ".:n")
      = ruleHashF (pstr "r") (pstr "c")
        [(pstr ".:n",
          ⟨pstr ".", pstr "n", pstr ".:n", pstr "ty", [pstr "s.c"], [], [],
            [(pstr "flags", PyVal.str (pstr "x"))]⟩)]
        (0 + 1) (pstr ".:n")
    ∧ ∀ (t : TargetCore) (d : List (PyStr × PyVal)) (dh : List PyStr),
        ruleHashOf (pstr "r") (pstr "c") { t with data := d } dh
          = ruleHashOf (pstr "r") (pstr "c") t dh :=
  rule_hash_deterministic (pstr "r") (pstr "c") _ _ 0 0 (pstr ".:n") (pstr ".:n")
    _ _ [] rfl rfl rfl rfl rfl rfl rfl rfl rfl

theorem char_toNat_inj {a b : Char} (h : a.toNat = b.toNat) : a = b := by
  cases a with
  | mk v1 h1 =>
    cases b with
    | mk v2 h2 =>
      have hv : v1 = v2 := UInt32.ext h
      subst hv
      rfl

theorem ofDigits_hexDigitsAux : ∀ (fuel n : Nat), n ≤ fuel →
    Nat.ofDigits 16 (hexDigitsAux fuel n) = n := by
  intro fuel
  induction fuel with
  | zero =>
    intro n hn
    have hz : n = 0 := Nat.le_zero.mp hn
    subst hz
    rfl
  | succ fuel ih =>
    intro n hn
    cases n with
    | zero => rfl
    | succ m =>
      rw [hexDigitsAux, Nat.ofDigits_cons,
        ih ((m + 1) / 16) (by
          have := Nat.div_lt_self (Nat.succ_pos m) (by norm_num : 1 < 16)
          omega)]
      exact Nat.mod_add_div (m + 1) 16

theorem hexDigits_inj {a b : Nat} (h : hexDigits a = hexDigits b) : a = b := by
  have ha := ofDigits_hexDigitsAux a a (le_refl a)
  have hb := ofDigits_hexDigitsAux b b (le_refl b)
  rw [hexDigits, hexDigits] at h
  rw [← ha, ← hb, h]

theorem hexDigitsAux_lt : ∀ (fuel n : Nat), ∀ d ∈ hexDigitsAux fuel n, d < 16 := by
  intro fuel
  induction fuel with
  | zero => intro n d hd; simp [hexDigitsAux] at hd
  | succ fuel ih =>
    intro n d hd
    cases n with
    | zero => simp [hexDigitsAux] at hd
    | succ m =>
      rw [hexDigitsAux] at hd
      rcases List.mem_cons.mp hd with h | h
      · subst h
        exact Nat.mod_lt _ (by norm_num)
      · exact ih _ d h

theorem hexDig_inj_lt : ∀ n ∈ List.range 16, ∀ m ∈ List.range 16,
    hexDig n = hexDig m → n = m := by decide

theorem hexDig_ne (n : Nat) :
    hexDig n ≠ 'g' ∧ hexDig n ≠ squote ∧ hexDig n ≠ dquote ∧ hexDig n ≠ bslash ∧
    hexDig n ≠ Char.ofNat 10 ∧ hexDig n ≠ Char.ofNat 13 ∧ hexDig n ≠ Char.ofNat 9 := by
  unfold hexDig
  split <;> exact (by decide)

theorem mapHexDig_inj : ∀ (l1 l2 : List Nat), (∀ d ∈ l1, d < 16) → (∀ d ∈ l2, d < 16) →
    l1.map hexDig = l2.map hexDig → l1 = l2 := by
  intro l1
  induction l1 with
  | nil =>
    intro l2 h1 h2 h
    cases l2 with
    | nil => rfl
    | cons d l2 => simp at h
  | cons d l1 ih =>
    intro l2 h1 h2 h
    cases l2 with
    | nil => simp at h
    | cons e l2 =>
      rw [List.map_cons, List.map_cons] at h
      injection h with hh ht
      have hde : d = e := hexDig_inj_lt d
        (List.mem_range.mpr (h1 d (List.mem_cons_self d l1))) e
        (List.mem_range.mpr (h2 e (List.mem_cons_self e l2))) hh
      rw [hde, ih l2 (fun x hx => h1 x (List.mem_cons_of_mem d hx))
        (fun x hx => h2 x (List.mem_cons_of_mem e hx)) ht]

theorem md5sum_cons (c : Char) (s : PyStr) :
    md5sum (c :: s) = (hexDigits c.toNat).map hexDig ++ 'g' :: md5sum s := by
  rw [md5sum, md5sum, List.flatMap_cons, List.append_assoc]
  rfl

theorem md5sum_inj : ∀ {s1 s2 : PyStr}, md5sum s1 = md5sum s2 → s1 = s2 := by
  intro s1
  induction s1 with
  | nil =>
    intro s2 h
    cases s2 with
    | nil => rfl
    | cons c s2 =>
      rw [md5sum_cons] at h
      rw [show md5sum [] = [] from rfl] at h
      exact absurd h.symm (by simp)
  | cons c s1 ih =>
    intro s2 h
    cases s2 with
    | nil =>
      rw [md5sum_cons] at h
      rw [show md5sum [] = [] from rfl] at h
      exact absurd h (by simp)
    | cons c2 s2 =>
      rw [md5sum_cons, md5sum_cons] at h
      have hg1 : 'g' ∉ (hexDigits c.toNat).map hexDig := by
        intro hx
        obtain ⟨d, -, hd⟩ := List.mem_map.mp hx
        exact (hexDig_ne d).1 hd
      have hg2 : 'g' ∉ (hexDigits c2.toNat).map hexDig := by
        intro hx
        obtain ⟨d, -, hd⟩ := List.mem_map.mp hx
        exact (hexDig_ne d).1 hd
      obtain ⟨hblock, htail⟩ := append_sep_inj hg1 hg2 h
      have hc : c = c2 := char_toNat_inj (hexDigits_inj
        (mapHexDig_inj _ _ (hexDigitsAux_lt _ _) (hexDigitsAux_lt _ _) hblock))
      rw [hc, ih htail]

theorem mapM_option_mono {α β : Type} {f g : α → Option β} {l : List α} {r : List β}
    (hfg : ∀ a ∈ l, ∀ b, f a = some b → g a = some b) (h : l.mapM f = some r) :
    l.mapM g = some r := by
  induction l generalizing r with
  | nil => simpa using h
  | cons a l ih =>
    rw [List.mapM_cons] at h ⊢
    cases hfa : f a with
    | none => rw [hfa] at h; simp at h
    | some b =>
      rw [hfa] at h
      cases hml : l.mapM f with
      | none => rw [hml] at h; simp at h
      | some bs =>
        rw [hml] at h
        simp at h
        rw [hfg a (List.mem_cons_self a l) b hfa,
          ih (fun x hx => hfg x (List.mem_cons_of_mem a hx)) hml]
        simp [h]

theorem ruleHashF_mono (rev cfg : PyStr) (db : List (PyStr × TargetCore)) :
    ∀ (n m : Nat) (k h : PyStr), ruleHashF rev cfg db n k = some h →
      ruleHashF rev cfg db (n + m) k = some h := by
  intro n
  induction n with
  | zero =>
    intro m k h hx
    exact absurd hx (by simp [ruleHashF])
  | succ n ih =>
    intro m k h hx
    have hnm : n + 1 + m = (n + m) + 1 := by omega
    rw [hnm]
    cases hl : dictLookup db k with
    | none => exact Option.noConfusion (by simp only [ruleHashF, hl] at hx; exact hx)
    | some t =>
      cases hm : t.deps.mapM (ruleHashF rev cfg db n) with
      | none => exact Option.noConfusion (by simp only [ruleHashF, hl, hm] at hx; exact hx)
      | some dhs =>
        simp only [ruleHashF, hl, hm] at hx
        simp only [ruleHashF, hl,
          mapM_option_mono (fun a _ b hb => ih m a b hb) hm]
        exact hx

theorem ruleHashF_det {rev cfg : PyStr} {db : List (PyStr × TargetCore)}
    {n1 n2 : Nat} {k h1 h2 : PyStr}
    (hx1 : ruleHashF rev cfg db n1 k = some h1)
    (hx2 : ruleHashF rev cfg db n2 k = some h2) : h1 = h2 := by
  have a1 := ruleHashF_mono rev cfg db n1 n2 k h1 hx1
  have a2 := ruleHashF_mono rev cfg db n2 n1 k h2 hx2
  rw [Nat.add_comm] at a2
  rw [a1] at a2
  exact Option.some.inj a2

theorem ruleHashF_entropy {rev cfg : PyStr} {db : List (PyStr × TargetCore)}
    {n : Nat} {k h : PyStr} (hx : ruleHashF rev cfg db (n + 1) k = some h) :
    ∃ E, entropyStrF rev cfg db (n + 1) k = some E ∧ h = md5sum E := by
  cases hl : dictLookup db k with
  | none => exact Option.noConfusion (by simp only [ruleHashF, hl] at hx; exact hx)
  | some t =>
    cases hm : t.deps.mapM (ruleHashF rev cfg db n) with
    | none => exact Option.noConfusion (by simp only [ruleHashF, hl, hm] at hx; exact hx)
    | some dhs =>
      simp only [ruleHashF, hl, hm] at hx
      refine ⟨entropyStr rev cfg t dhs, ?_, ?_⟩
      · simp only [entropyStrF, hl, hm]
      · injection hx with hh
        rw [← hh]
        rfl

theorem entropyStrF_hash {rev cfg : PyStr} {db : List (PyStr × TargetCore)}
    {n : Nat} {k E : PyStr} (hx : entropyStrF rev cfg db (n + 1) k = some E) :
    ruleHashF rev cfg db (n + 1) k = some (md5sum E) := by
  cases hl : dictLookup db k with
  | none => exact Option.noConfusion (by simp only [entropyStrF, hl] at hx; exact hx)
  | some t =>
    cases hm : t.deps.mapM (ruleHashF rev cfg db n) with
    | none => exact Option.noConfusion (by simp only [entropyStrF, hl, hm] at hx; exact hx)
    | some dhs =>
      simp only [entropyStrF, hl, hm] at hx
      simp only [ruleHashF, hl, hm]
      injection hx with hh
      rw [← hh]
      rfl

theorem entropyStrF_pos {rev cfg : PyStr} {db : List (PyStr × TargetCore)}
    {n : Nat} {k E : PyStr} (hx : entropyStrF rev cfg db n k = some E) :
    ∃ m, n = m + 1 := by
  cases n with
  | zero => exact absurd hx (by simp [entropyStrF])
  | succ m => exact ⟨m, rfl⟩

theorem mapM_forall2 {α β : Type} {f : α → Option β} : ∀ {l : List α} {r : List β},
    l.mapM f = some r → List.Forall₂ (fun a b => f a = some b) l r := by
  intro l
  induction l with
  | nil =>
    intro r h
    rw [List.mapM_nil] at h
    injection h with hh
    rw [← hh]
    exact List.Forall₂.nil
  | cons a l ih =>
    intro r h
    rw [List.mapM_cons] at h
    cases hfa : f a with
    | none => rw [hfa] at h; simp at h
    | some b =>
      rw [hfa] at h
      cases hml : l.mapM f with
      | none => rw [hml] at h; simp at h
      | some bs =>
        rw [hml] at h
        simp at h
        rw [← h]
        exact List.Forall₂.cons hfa (ih hml)

theorem md5sum_clean (s : PyStr) : CleanStr (md5sum s) := by
  intro ch hch
  rw [md5sum] at hch
  obtain ⟨c, -, hc⟩ := List.mem_flatMap.mp hch
  rcases List.mem_append.mp hc with hx | hx
  · obtain ⟨d, -, hd⟩ := List.mem_map.mp hx
    subst hd
    obtain ⟨-, h2, h3, h4, h5, h6, h7⟩ := hexDig_ne d
    exact ⟨h2, h3, h4, h5, h6, h7⟩
  · rw [List.mem_singleton] at hx
    subst hx
    exact ⟨by decide, by decide, by decide, by decide, by decide, by decide⟩

theorem ruleHashF_clean {rev cfg : PyStr} {db : List (PyStr × TargetCore)}
    {n : Nat} {k h : PyStr} (hx : ruleHashF rev cfg db n k = some h) : CleanStr h := by
  cases n with
  | zero => exact absurd hx (by simp [ruleHashF])
  | succ n =>
    cases hl : dictLookup db k with
    | none => exact Option.noConfusion (by simp only [ruleHashF, hl] at hx; exact hx)
    | some t =>
      cases hm : t.deps.mapM (ruleHashF rev cfg db n) with
      | none => exact Option.noConfusion (by simp only [ruleHashF, hl, hm] at hx; exact hx)
      | some dhs =>
        simp only [ruleHashF, hl, hm] at hx
        injection hx with hh
        rw [← hh]
        exact md5sum_clean _

/-- Characters of a clean string need no escaping under single-quote `repr`. -/
theorem clean_flatMap {s : PyStr} (h : CleanStr s) :
    s.flatMap (pyEscapeChar squote) = s := by
  induction s with
  | nil => rfl
  | cons c cs ih =>
    obtain ⟨h1, h2, h3, h4, h5, h6⟩ := h c (List.mem_cons_self c cs)
    have hA : ¬(c = bslash ∨ c = squote) := by
      intro hc
      cases hc with
      | inl hb => exact h3 hb
      | inr hq => exact h1 hq
    have hesc : pyEscapeChar squote c = [c] := by
      unfold pyEscapeChar
      rw [if_neg hA, if_neg h4, if_neg h5, if_neg h6]
    have hcs : CleanStr cs := fun x hx => h x (List.mem_cons_of_mem c hx)
    simp [List.flatMap_cons, hesc, ih hcs]

/-- The `repr` of a clean string is plain single-quoting. -/
theorem cleanRepr {s : PyStr} (h : CleanStr s) :
    pyReprStr s = squote :: (s ++ [squote]) := by
  have hcond : ¬(squote ∈ s ∧ dquote ∉ s) := fun hc => (h squote hc.1).1 rfl
  unfold pyReprStr
  rw [if_neg hcond, clean_flatMap h]
  simp

theorem clean_not_mem_squote {x : PyStr} (hx : CleanStr x) : squote ∉ x :=
  fun hc => (hx squote hc).1 rfl

/-- Normal form of the list-`repr` interior with a clean head. -/
theorem pyReprStrList_cons_eq {x : PyStr} (hx : CleanStr x) (xs : List PyStr) :
    pyReprStrList (x :: xs) = squote :: ((x ++ [squote]) ++ pyReprStrTail xs) := by
  cases xs with
  | nil =>
    rw [show pyReprStrList [x] = pyReprStr x from rfl, cleanRepr hx]
    simp [pyReprStrTail]
  | cons y ys =>
    rw [show pyReprStrList (x :: y :: ys) =
        pyReprStr x ++ ',' :: ' ' :: pyReprStrList (y :: ys) from rfl, cleanRepr hx]
    simp [pyReprStrTail]

/-- `repr` of string lists is injective on lists of clean strings. -/
theorem pyReprStrList_inj : ∀ (l1 l2 : List PyStr),
    (∀ s ∈ l1, CleanStr s) → (∀ s ∈ l2, CleanStr s) →
    pyReprStrList l1 = pyReprStrList l2 → l1 = l2 := by
  intro l1
  induction l1 with
  | nil =>
    intro l2 _ h2 he
    cases l2 with
    | nil => rfl
    | cons y l2 =>
      rw [pyReprStrList_cons_eq (h2 y (List.mem_cons_self y l2))] at he
      exact List.noConfusion he
  | cons x l1 ih =>
    intro l2 h1 h2 he
    cases l2 with
    | nil =>
      rw [pyReprStrList_cons_eq (h1 x (List.mem_cons_self x l1))] at he
      exact List.noConfusion he
    | cons y l2 =>
      have hx := h1 x (List.mem_cons_self x l1)
      have hy := h2 y (List.mem_cons_self y l2)
      rw [pyReprStrList_cons_eq hx, pyReprStrList_cons_eq hy] at he
      injection he with hh he1
      rw [List.append_assoc, List.append_assoc, List.singleton_append,
        List.singleton_append] at he1
      obtain ⟨hxy, hT⟩ :=
        append_sep_inj (clean_not_mem_squote hx) (clean_not_mem_squote hy) he1
      have hl : l1 = l2 := by
        cases l1 with
        | nil =>
          cases l2 with
          | nil => rfl
          | cons z zs =>
            simp only [pyReprStrTail] at hT
            exact List.noConfusion hT
        | cons z zs =>
          cases l2 with
          | nil =>
            simp only [pyReprStrTail] at hT
            exact List.noConfusion hT
          | cons w ws =>
            simp only [pyReprStrTail] at hT
            injection hT with ha hT2
            injection hT2 with hb hT3
            exact ih (w :: ws) (fun s hs => h1 s (List.mem_cons_of_mem x hs))
              (fun s hs => h2 s (List.mem_cons_of_mem y hs)) hT3
      rw [hxy, hl]

theorem app_cancel_left {α : Type} {a b c : List α} (h : a ++ b = a ++ c) : b = c :=
  (List.append_inj h rfl).2

theorem app_cancel_right {α : Type} {a b c : List α} (h : a ++ c = b ++ c) : a = b :=
  (List.append_inj' h rfl).1

/-- `d[k0] = w` on a dict holding a binding at another key `dk` keeps that
binding in place; the surrounding frame does not depend on the bound value. -/
theorem dictSet_hole {α : Type} {dk k0 : PyStr} (hne : k0 ≠ dk) (w : α) :
    ∀ (pre post : List (PyStr × α)), ∃ pre2 post2 : List (PyStr × α),
      ∀ v : α, dictSet (pre ++ (dk, v) :: post) k0 w = pre2 ++ (dk, v) :: post2 := by
  intro pre
  induction pre with
  | nil =>
    intro post
    refine ⟨[], dictSet post k0 w, fun v => ?_⟩
    rw [List.nil_append, List.nil_append]
    simp only [dictSet]
    rw [if_neg (Ne.symm hne)]
  | cons kv pre ihp =>
    obtain ⟨k2, v2⟩ := kv
    intro post
    by_cases hk : k2 = k0
    · refine ⟨(k2, w) :: pre, post, fun v => ?_⟩
      rw [List.cons_append, List.cons_append]
      simp only [dictSet]
      rw [if_pos hk]
    · obtain ⟨pre2, post2, hIH⟩ := ihp post
      refine ⟨(k2, v2) :: pre2, post2, fun v => ?_⟩
      rw [List.cons_append, List.cons_append]
      simp only [dictSet]
      rw [if_neg hk, hIH v]

/-- `d.update(u)` for `u` not binding `dk` keeps the `dk` binding in place,
with a frame independent of the bound value. -/
theorem dictUpdate_hole {α : Type} {dk : PyStr} :
    ∀ (u : List (PyStr × α)), dk ∉ u.map Prod.fst →
    ∀ (pre post : List (PyStr × α)), ∃ pre2 post2 : List (PyStr × α),
      ∀ v : α, dictUpdate (pre ++ (dk, v) :: post) u = pre2 ++ (dk, v) :: post2 := by
  intro u
  induction u with
  | nil =>
    intro _ pre post
    exact ⟨pre, post, fun v => rfl⟩
  | cons kv u ihu =>
    intro hu pre post
    have hk : kv.1 ≠ dk := by
      intro h
      exact hu (by rw [← h]; exact List.mem_map_of_mem Prod.fst (List.mem_cons_self kv u))
    have hu2 : dk ∉ u.map Prod.fst := fun h => hu (List.mem_cons_of_mem _ h)
    obtain ⟨preA, postA, hA⟩ := dictSet_hole hk kv.2 pre post
    obtain ⟨preB, postB, hB⟩ := ihu hu2 preA postA
    refine ⟨preB, postB, fun v => ?_⟩
    have hstep : dictUpdate (pre ++ (dk, v) :: post) (kv :: u)
        = dictUpdate (dictSet (pre ++ (dk, v) :: post) kv.1 kv.2) u := rfl
    rw [hstep, hA v, hB v]

/-- Ordered insertion over a list holding a `dk` binding keeps the binding,
with a frame independent of its value (comparison reads only keys). -/
theorem insertByKey_hole (x : PyStr × PyVal) (dk : PyStr) :
    ∀ (A B : List (PyStr × PyVal)), ∃ A2 B2 : List (PyStr × PyVal), ∀ v : PyVal,
      insertByKey x (A ++ (dk, v) :: B) = A2 ++ (dk, v) :: B2 := by
  intro A
  induction A with
  | nil =>
    intro B
    by_cases hle : pstrLe x.1 dk = true
    · refine ⟨[x], B, fun v => ?_⟩
      rw [List.nil_append]
      simp only [insertByKey]
      rw [if_pos hle]
      rfl
    · refine ⟨[], insertByKey x B, fun v => ?_⟩
      rw [List.nil_append, List.nil_append]
      simp only [insertByKey]
      rw [if_neg hle]
  | cons y A ihA =>
    intro B
    obtain ⟨A2, B2, hIH⟩ := ihA B
    by_cases hle : pstrLe x.1 y.1 = true
    · refine ⟨x :: y :: A, B, fun v => ?_⟩
      rw [List.cons_append]
      simp only [insertByKey]
      rw [if_pos hle]
      simp
    · refine ⟨y :: A2, B2, fun v => ?_⟩
      rw [List.cons_append]
      simp only [insertByKey]
      rw [if_neg hle, hIH v]
      rfl

/-- Inserting a `dk` binding into a sorted list places it at a position
determined by the keys alone. -/
theorem insertByKey_self_hole (dk : PyStr) :
    ∀ (L : List (PyStr × PyVal)), ∃ A B : List (PyStr × PyVal), ∀ v : PyVal,
      insertByKey (dk, v) L = A ++ (dk, v) :: B := by
  intro L
  induction L with
  | nil => exact ⟨[], [], fun v => rfl⟩
  | cons y L ihL =>
    obtain ⟨A, B, hIH⟩ := ihL
    by_cases hle : pstrLe dk y.1 = true
    · refine ⟨[], y :: L, fun v => ?_⟩
      simp only [insertByKey]
      rw [if_pos hle]
      rfl
    · refine ⟨y :: A, B, fun v => ?_⟩
      simp only [insertByKey]
      rw [if_neg hle, hIH v]
      rfl

theorem foldr_insert_hole (dk : PyStr) :
    ∀ (P A B : List (PyStr × PyVal)), ∃ A2 B2 : List (PyStr × PyVal), ∀ v : PyVal,
      P.foldr insertByKey (A ++ (dk, v) :: B) = A2 ++ (dk, v) :: B2 := by
  intro P
  induction P with
  | nil => intro A B; exact ⟨A, B, fun v => rfl⟩
  | cons x P ihP =>
    intro A B
    obtain ⟨A2, B2, hIH⟩ := ihP A B
    obtain ⟨A3, B3, hI2⟩ := insertByKey_hole x dk A2 B2
    refine ⟨A3, B3, fun v => ?_⟩
    rw [List.foldr_cons, hIH v, hI2 v]

/-- `sorted` of a record holding a `dk` binding: the binding survives with a
frame independent of its value. -/
theorem sortByKey_hole (dk : PyStr) (P Q : List (PyStr × PyVal)) :
    ∃ A B : List (PyStr × PyVal), ∀ v : PyVal,
      sortByKey (P ++ (dk, v) :: Q) = A ++ (dk, v) :: B := by
  obtain ⟨A1, B1, h1⟩ := insertByKey_self_hole dk (sortByKey Q)
  obtain ⟨A2, B2, h2⟩ := foldr_insert_hole dk P A1 B1
  refine ⟨A2, B2, fun v => ?_⟩
  rw [sortByKey, List.foldr_append, List.foldr_cons]
  rw [show Q.foldr insertByKey [] = sortByKey Q from rfl, h1 v, h2 v]

theorem pyReprItems_cons_ne (kv : PyStr × PyVal) {kvs : List (PyStr × PyVal)}
    (h : kvs ≠ []) :
    pyReprItems (kv :: kvs) = pyReprItem kv ++ ',' :: ' ' :: pyReprItems kvs := by
  cases kvs with
  | nil => exact absurd rfl h
  | cons y ys => rfl

/-- Serializing an item list holding a `dk` binding: the item appears between
frames independent of its value. -/
theorem pyReprItems_hole (dk : PyStr) :
    ∀ (S1 S2 : List (PyStr × PyVal)), ∃ C1 C2 : PyStr, ∀ v : PyVal,
      pyReprItems (S1 ++ (dk, v) :: S2) = C1 ++ (pyReprItem (dk, v) ++ C2) := by
  intro S1
  induction S1 with
  | nil =>
    intro S2
    cases S2 with
    | nil => exact ⟨[], [], fun v => by simp [pyReprItems]⟩
    | cons y S2 =>
      refine ⟨[], ',' :: ' ' :: pyReprItems (y :: S2), fun v => ?_⟩
      rw [List.nil_append, pyReprItems_cons_ne _ (by simp), List.nil_append]
  | cons x S1 ihS =>
    intro S2
    obtain ⟨C1, C2, hIH⟩ := ihS S2
    refine ⟨pyReprItem x ++ ',' :: ' ' :: C1, C2, fun v => ?_⟩
    rw [List.cons_append, pyReprItems_cons_ne x (by simp), hIH v]
    simp [List.append_assoc]

/-- The serialized entropy record of a target whose `attr` does not bind
`deps`: the `deps` item appears once, between frames independent of the
dependency-hash list. -/
theorem entropyStr_hole (rev cfg : PyStr) (t : TargetCore)
    (hattr : pstr "deps" ∉ t.attr.map Prod.fst) :
    ∃ C1 C2 : PyStr, ∀ dhs : List PyStr,
      entropyStr rev cfg t dhs =
        '[' :: (C1 ++ (pyReprItem (pstr "deps", PyVal.strList dhs) ++ (C2 ++ [']']))) := by
  obtain ⟨pre2, post2, hU⟩ := dictUpdate_hole t.attr hattr
    [(pstr "blade_revision", PyVal.str rev), (pstr "config", PyVal.str cfg),
     (pstr "type", PyVal.str t.type), (pstr "name", PyVal.str t.name),
     (pstr "srcs", PyVal.strList t.srcs)] []
  obtain ⟨A, B, hS⟩ := sortByKey_hole (pstr "deps") pre2 post2
  obtain ⟨C1, C2, hR⟩ := pyReprItems_hole (pstr "deps") A B
  refine ⟨C1, C2, fun dhs => ?_⟩
  have h1 : ruleEntropy rev cfg t dhs = pre2 ++ (pstr "deps", PyVal.strList dhs) :: post2 := by
    rw [ruleEntropy, show ruleEntropyBase rev cfg t dhs =
      [(pstr "blade_revision", PyVal.str rev), (pstr "config", PyVal.str cfg),
       (pstr "type", PyVal.str t.type), (pstr "name", PyVal.str t.name),
       (pstr "srcs", PyVal.strList t.srcs)] ++ (pstr "deps", PyVal.strList dhs) :: [] from rfl]
    exact hU (PyVal.strList dhs)
  simp only [entropyStr, pyStrItems]
  rw [h1, hS (PyVal.strList dhs), hR (PyVal.strList dhs)]
  simp [List.append_assoc]

/-- Serialization of the entropy record is injective in the dependency-hash
list, for clean hash strings, when `attr` does not bind `deps`. -/
theorem entropyStr_deps_inj (rev cfg : PyStr) (t : TargetCore)
    (hattr : pstr "deps" ∉ t.attr.map Prod.fst)
    {dhs1 dhs2 : List PyStr}
    (h1 : ∀ s ∈ dhs1, CleanStr s) (h2 : ∀ s ∈ dhs2, CleanStr s)
    (he : entropyStr rev cfg t dhs1 = entropyStr rev cfg t dhs2) : dhs1 = dhs2 := by
  obtain ⟨C1, C2, hE⟩ := entropyStr_hole rev cfg t hattr
  rw [hE dhs1, hE dhs2] at he
  injection he with hh he1
  have he2 := app_cancel_left he1
  have he3 := app_cancel_right he2
  have he4 : '(' :: (pyReprStr (pstr "deps") ++
        ',' :: ' ' :: (pyReprVal (PyVal.strList dhs1) ++ [')'])) =
      '(' :: (pyReprStr (pstr "deps") ++
        ',' :: ' ' :: (pyReprVal (PyVal.strList dhs2) ++ [')'])) := he3
  injection he4 with hp he5
  have he6 := app_cancel_left he5
  injection he6 with hc he7
  injection he7 with hs he8
  have he9 := app_cancel_right he8
  simp only [pyReprVal] at he9
  injection he9 with hb he10
  have he11 := app_cancel_right he10
  exact pyReprStrList_inj dhs1 dhs2 h1 h2 he11

theorem forall2_same_out {α β : Type} {f g : α → Option β} :
    ∀ {l : List α} {r : List β},
      List.Forall₂ (fun a b => f a = some b) l r →
      List.Forall₂ (fun a b => g a = some b) l r →
      ∀ a ∈ l, ∃ b, f a = some b ∧ g a = some b := by
  intro l r h1
  induction h1 with
  | nil => intro _ a ha; exact absurd ha (List.not_mem_nil a)
  | cons hf h1 ih =>
    intro h2 a ha
    cases h2 with
    | cons hg h2 =>
      rcases List.mem_cons.mp ha with ha1 | ha2
      · exact ⟨_, by rw [ha1]; exact hf, by rw [ha1]; exact hg⟩
      · exact ih h2 a ha2

theorem forall2_mem_right {α β : Type} {R : α → β → Prop} :
    ∀ {l : List α} {r : List β}, List.Forall₂ R l r → ∀ b ∈ r, ∃ a ∈ l, R a b := by
  intro l r h
  induction h with
  | nil => intro b hb; exact absurd hb (List.not_mem_nil b)
  | cons hR hF ih =>
    intro b hb
    rcases List.mem_cons.mp hb with hb1 | hb2
    · exact ⟨_, List.mem_cons_self _ _, by rw [hb1]; exact hR⟩
    · obtain ⟨a, ha, hr⟩ := ih b hb2
      exact ⟨a, List.mem_cons_of_mem _ ha, hr⟩

/-- A hash difference at a direct dependency propagates to the dependent
target, in registries agreeing everywhere except at the leaf key. -/
theorem hash_step_ne (rev cfg : PyStr) (db1 db2 : List (PyStr × TargetCore)) (lk : PyStr)
    (hdb : ∀ k2, k2 ≠ lk → dictLookup db1 k2 = dictLookup db2 k2)
    (hnd1 : ∀ k t, dictLookup db1 k = some t → pstr "deps" ∉ t.attr.map Prod.fst)
    {k : PyStr} {t : TargetCore} {d : PyStr}
    (hkl : k ≠ lk) (hlk : dictLookup db1 k = some t) (hd : d ∈ t.deps)
    (hdne : ∀ (m1 m2 : Nat) (b1 b2 : PyStr),
      ruleHashF rev cfg db1 m1 d = some b1 →
      ruleHashF rev cfg db2 m2 d = some b2 → b1 ≠ b2)
    {m1 m2 : Nat} {g1 g2 : PyStr}
    (hg1 : ruleHashF rev cfg db1 m1 k = some g1)
    (hg2 : ruleHashF rev cfg db2 m2 k = some g2) : g1 ≠ g2 := by
  cases m1 with
  | zero => exact absurd hg1 (by simp [ruleHashF])
  | succ n1 =>
    cases m2 with
    | zero => exact absurd hg2 (by simp [ruleHashF])
    | succ n2 =>
      have hlk2 : dictLookup db2 k = some t := (hdb k hkl) ▸ hlk
      cases hm1 : t.deps.mapM (ruleHashF rev cfg db1 n1) with
      | none => exact Option.noConfusion (by simp only [ruleHashF, hlk, hm1] at hg1; exact hg1)
      | some dhs1 =>
        cases hm2 : t.deps.mapM (ruleHashF rev cfg db2 n2) with
        | none =>
          exact Option.noConfusion (by simp only [ruleHashF, hlk2, hm2] at hg2; exact hg2)
        | some dhs2 =>
          simp only [ruleHashF, hlk, hm1] at hg1
          simp only [ruleHashF, hlk2, hm2] at hg2
          injection hg1 with hg1e
          injection hg2 with hg2e
          intro hgg
          have hmd : md5sum (entropyStr rev cfg t dhs1)
              = md5sum (entropyStr rev cfg t dhs2) := by
            rw [show md5sum (entropyStr rev cfg t dhs1) = ruleHashOf rev cfg t dhs1 from rfl,
              show md5sum (entropyStr rev cfg t dhs2) = ruleHashOf rev cfg t dhs2 from rfl,
              hg1e, hg2e]
            exact hgg
          have hes := md5sum_inj hmd
          have hf1 := mapM_forall2 hm1
          have hf2 := mapM_forall2 hm2
          have hcl1 : ∀ s ∈ dhs1, CleanStr s := by
            intro s hs
            obtain ⟨a, ha, hfa⟩ := forall2_mem_right hf1 s hs
            exact ruleHashF_clean hfa
          have hcl2 : ∀ s ∈ dhs2, CleanStr s := by
            intro s hs
            obtain ⟨a, ha, hfa⟩ := forall2_mem_right hf2 s hs
            exact ruleHashF_clean hfa
          have hdeq : dhs1 = dhs2 :=
            entropyStr_deps_inj rev cfg t (hnd1 k t hlk) hcl1 hcl2 hes
          rw [hdeq] at hf1
          obtain ⟨b, hb1, hb2⟩ := forall2_same_out hf1 hf2 d hd
          exact hdne n1 n2 b b hb1 hb2 rfl

/-- C6: dependency composition of `rule_hash` is recursive over direct
dependencies only, and hash changes propagate transitively. Provided no
target's `attr` mapping binds the reserved `deps` key: (1) when `rule_hash`
succeeds on a target, the `deps` entry of its entropy record is exactly the
ordered list of the direct dependencies' own hashes, obtained by registry
lookup in declaration order; (2) in a second registry that agrees everywhere
except at one leaf key, if the leaf's hash differs, the hash of every target
that transitively depends on the leaf differs as well. -/
theorem rule_hash_deps_recursive (rev cfg : PyStr)
    (db1 db2 : List (PyStr × TargetCore)) (lk : PyStr)
    (hdb : ∀ k2, k2 ≠ lk → dictLookup db1 k2 = dictLookup db2 k2)
    (hnd1 : ∀ k t, dictLookup db1 k = some t → pstr "deps" ∉ t.attr.map Prod.fst) :
    (∀ (n : Nat) (k : PyStr) (t : TargetCore) (dhs : List PyStr),
      dictLookup db1 k = some t →
      t.deps.mapM (ruleHashF rev cfg db1 n) = some dhs →
      ruleHashF rev cfg db1 (n + 1) k = some (md5sum (entropyStr rev cfg t dhs)) ∧
      List.Forall₂ (fun d h => ruleHashF rev cfg db1 n d = some h) t.deps dhs ∧
      dictLookup (ruleEntropy rev cfg t dhs) (pstr "deps") = some (PyVal.strList dhs)) ∧
    (∀ (nl1 nl2 : Nat),
      (ruleHashF rev cfg db1 nl1 lk).isSome = true →
      (ruleHashF rev cfg db2 nl2 lk).isSome = true →
      ruleHashF rev cfg db1 nl1 lk ≠ ruleHashF rev cfg db2 nl2 lk →
      ∀ (k : PyStr), Reaches db1 lk k →
      ∀ (m1 m2 : Nat),
        (ruleHashF rev cfg db1 m1 k).isSome = true →
        (ruleHashF rev cfg db2 m2 k).isSome = true →
        ruleHashF rev cfg db1 m1 k ≠ ruleHashF rev cfg db2 m2 k) := by
  constructor
  · intro n k t dhs hlk hm
    refine ⟨by simp only [ruleHashF, hlk, hm]; rfl, mapM_forall2 hm, ?_⟩
    rw [ruleEntropy, dictLookup_dictUpdate_not_mem _ (hnd1 k t hlk)]
    rfl
  · intro nl1 nl2 hs1 hs2 hlne k hre
    obtain ⟨hl1, hx1⟩ := Option.isSome_iff_exists.mp hs1
    obtain ⟨hl2, hx2⟩ := Option.isSome_iff_exists.mp hs2
    have hlvne : ∀ (m1 m2 : Nat) (b1 b2 : PyStr),
        ruleHashF rev cfg db1 m1 lk = some b1 →
        ruleHashF rev cfg db2 m2 lk = some b2 → b1 ≠ b2 := by
      intro m1 m2 b1 b2 hb1 hb2 hbe
      apply hlne
      rw [hx1, hx2]
      have e1 : b1 = hl1 := ruleHashF_det hb1 hx1
      have e2 : b2 = hl2 := ruleHashF_det hb2 hx2
      rw [← e1, ← e2, hbe]
    induction hre with
    | direct k t hlk hmem =>
      intro m1 m2 hs1k hs2k he
      obtain ⟨g1, hg1⟩ := Option.isSome_iff_exists.mp hs1k
      obtain ⟨g2, hg2⟩ := Option.isSome_iff_exists.mp hs2k
      rw [hg1, hg2] at he
      by_cases hkl : k = lk
      · subst hkl
        exact hlvne m1 m2 g1 g2 hg1 hg2 (Option.some.inj he)
      · exact hash_step_ne rev cfg db1 db2 lk hdb hnd1 hkl hlk hmem hlvne hg1 hg2
          (Option.some.inj he)
    | step k t d hlk hd hrd ih =>
      intro m1 m2 hs1k hs2k he
      obtain ⟨g1, hg1⟩ := Option.isSome_iff_exists.mp hs1k
      obtain ⟨g2, hg2⟩ := Option.isSome_iff_exists.mp hs2k
      rw [hg1, hg2] at he
      by_cases hkl : k = lk
      · subst hkl
        exact hlvne m1 m2 g1 g2 hg1 hg2 (Option.some.inj he)
      · have hdne : ∀ (m1 m2 : Nat) (b1 b2 : PyStr),
            ruleHashF rev cfg db1 m1 d = some b1 →
            ruleHashF rev cfg db2 m2 d = some b2 → b1 ≠ b2 := by
          intro m1a m2a b1 b2 hb1 hb2 hbe
          apply ih m1a m2a (by rw [hb1]; rfl) (by rw [hb2]; rfl)
          rw [hb1, hb2, hbe]
        exact hash_step_ne rev cfg db1 db2 lk hdb hnd1 hkl hlk hd hdne hg1 hg2
          (Option.some.inj he)

/-- C6 counterexample to the claim as stated: when a target's `attr` mapping
itself binds the key `deps`, `entropy.update(self._rule_hash_entropy())`
overwrites the dependency-hash entry, the entropy record's `deps` entry is the
`attr` value rather than the direct dependencies' hashes, and a change to a
leaf dependency (here: its `srcs`) changes the leaf's hash but not the
dependent target's hash, refuting the propagation consequence. -/
theorem rule_hash_deps_override_counterexample :
    (ruleHashF (pstr "r") (pstr "c") dbOvA 1 leafKey ≠
      ruleHashF (pstr "r") (pstr "c") dbOvB 1 leafKey) ∧
    (ruleHashF (pstr "r") (pstr "c") dbOvA 1 leafKey).isSome = true ∧
    (ruleHashF (pstr "r") (pstr "c") dbOvB 1 leafKey).isSome = true ∧
    Reaches dbOvA leafKey parentKey ∧
    (ruleHashF (pstr "r") (pstr "c") dbOvA 2 parentKey).isSome = true ∧
    ruleHashF (pstr "r") (pstr "c") dbOvA 2 parentKey =
      ruleHashF (pstr "r") (pstr "c") dbOvB 2 parentKey ∧
    dictLookup (ruleEntropy (pstr "r") (pstr "c") parentOv
        [md5sum (entropyStr (pstr "r") (pstr "c") leafA [])]) (pstr "deps") =
      some (PyVal.str (pstr "x")) :=
  ⟨by decide, by decide, by decide,
    Reaches.direct parentKey parentOv (by decide) (by decide),
    by decide, by decide, by decide⟩

/-- Witness for C6 on a concrete two-target registry: the two leaf variants
differ only in `srcs`, their hashes differ, and the parent's hash differs
accordingly. -/
theorem rule_hash_deps_recursive_witness :
    ruleHashF (pstr "r") (pstr "c") dbA 2 parentKey ≠
      ruleHashF (pstr "r") (pstr "c") dbB 2 parentKey := by
  have main := rule_hash_deps_recursive (pstr "r") (pstr "c") dbA dbB leafKey
    (by
      intro k2 hk2
      simp only [dbA, dbB, dictLookup]
      rw [if_neg (fun h => hk2 (Eq.symm h)), if_neg (fun h => hk2 (Eq.symm h))])
    (by
      intro k t hlk
      simp only [dbA, dictLookup] at hlk
      split at hlk
      · injection hlk with ht
        rw [← ht]
        decide
      · split at hlk
        · injection hlk with ht
          rw [← ht]
          decide
        · exact Option.noConfusion hlk)
  exact main.2 1 1 (by decide) (by decide) (by decide) parentKey
    (Reaches.direct parentKey parentOk (by decide) (by decide)) 2 2 (by decide) (by decide)

end Blade
